import Mathlib

/-!
# The undo stack of `mfmayer/undostack`

A shallow embedding of `src/undostack.go`.

* An `Action` is a host value with two methods.  The embedding identifies a
  (non-nil) action by a number and records every method invocation in a
  chronological trace of `Call`s; what an invocation returns is given by the
  `Host`, as a function of the calls made so far and the call itself.
* A `*Operation` is a pointer: `none` is `nil`, `some p` is the address `p`,
  and `Host.deref p` is the `Operation` stored there.
* `UndoStack` holds the slice `operations` and the Go `int` `nextDoIndex`
  (an `Int`; the only increment is guarded by `nextDoIndex < len(operations)`
  and the only decrement by `nextDoIndex > 0`, so it never wraps). The one
  other arithmetic on it, the subtraction in `State`, is taken on the
  integers; `goIntSub` is the wrapping 64-bit subtraction it stands for, and
  the two agree whenever the difference fits an `int`.
* A run-time panic (index out of range, nil dereference) ends the call; the
  fields of the stack keep the values they had at that point.
* The mutex is not part of the embedding: calls are taken one at a time.
-/

namespace Undostack

/-- Value of Go type `error` returned by an action: its message. -/
abbrev GoError := String

/-- One invocation of a method of the action with the given identity. -/
inductive Call where
  | Do (a : Nat)
  | Undo (a : Nat)
  deriving DecidableEq, Repr

/-- The action a call is made on. -/
def Call.action : Call → Nat
  | Call.Do a => a
  | Call.Undo a => a

/-- The struct `Operation` (lines 17-20): a name and the actions, in order. -/
structure Operation where
  Name : String
  Actions : List Nat
  deriving DecidableEq, Repr

/-- The host program: the memory holding its operations, and the behaviour of
its actions (`ret w c` is what call `c` returns after the calls `w`, `none`
being a nil error). -/
structure Host where
  deref : Nat → Operation
  ret : List Call → Call → Option GoError

/-- Run-time panics of the Go code. -/
inductive Panic where
  | indexOutOfRange
  | sliceBoundsOutOfRange
  | nilDereference
  deriving DecidableEq, Repr

/-- Modelled from the spec: the type `multierror.Error` of the imported package
go-multierror, a container of individual error values. A `*multierror.Error`
is an `Option MultiError`, `none` being nil. -/
structure MultiError where
  Errors : List GoError
  deriving DecidableEq, Repr

/-- Modelled from the spec: `multierror.Append(err, e)` of the imported package
go-multierror, for a non-nil `e`: the aggregate `err` (a fresh one when `err`
is nil) with `e` added after the errors collected so far. -/
def multierror.Append (err : Option MultiError) (e : GoError) : Option MultiError :=
  match err with
  | none => some ⟨[e]⟩
  | some m => some ⟨m.Errors ++ [e]⟩

/-- Modelled from the spec: `(*multierror.Error).ErrorOrNil()` of the imported
package go-multierror, the "none if empty" collapse: nil for a nil or empty
aggregate, the aggregate otherwise. -/
def MultiError.ErrorOrNil (err : Option MultiError) : Option MultiError :=
  match err with
  | none => none
  | some m => if m.Errors.length = 0 then none else some m

deriving instance DecidableEq for Except

/-- What running an operation gives: the trace afterwards and either the
returned error or a panic. -/
structure Outcome where
  world : List Call
  out : Except Panic (Option MultiError)
  deriving DecidableEq

/-- The loop of `Operation.do` (lines 24-29), `for _, a := range o.Actions`,
with the aggregate `err` and the trace as loop state. -/
def Operation.doLoop (h : Host) : List Nat → Option MultiError → List Call →
    Option MultiError × List Call
  | [], err, w => (err, w)
  | a :: rest, err, w =>
    let e := h.ret w (Call.Do a)
    let w := w ++ [Call.Do a]
    match e with
    | some e => Operation.doLoop h rest (multierror.Append err e) w
    | none => Operation.doLoop h rest err w

/-- The method `(o *Operation) do()` (lines 22-31). Reading `o.Actions` through
a nil `o` panics before any action is invoked. -/
def Operation.do_ (h : Host) (o : Option Nat) (w : List Call) : Outcome :=
  match o with
  | none => ⟨w, .error .nilDereference⟩
  | some p =>
    let r := Operation.doLoop h (h.deref p).Actions none w
    ⟨r.2, .ok (MultiError.ErrorOrNil r.1)⟩

/-- The loop of `Operation.undo` (lines 35-41), `for i := len-1; i >= 0; i--`.
The counter is `i + 1`: `0` is the exit `i = -1`, and at `n + 1` the body
runs with `i = n` and reads `o.Actions[i]`. -/
def Operation.undoLoop (h : Host) (acts : List Nat) : Nat → Option MultiError → List Call →
    Outcome
  | 0, err, w => ⟨w, .ok (MultiError.ErrorOrNil err)⟩
  | n + 1, err, w =>
    match acts.get? n with
    | none => ⟨w, .error .indexOutOfRange⟩
    | some a =>
      let e := h.ret w (Call.Undo a)
      let w := w ++ [Call.Undo a]
      match e with
      | some e => Operation.undoLoop h acts n (multierror.Append err e) w
      | none => Operation.undoLoop h acts n err w

/-- The method `(o *Operation) undo()` (lines 33-43). -/
def Operation.undo (h : Host) (o : Option Nat) (w : List Call) : Outcome :=
  match o with
  | none => ⟨w, .error .nilDereference⟩
  | some p => Operation.undoLoop h (h.deref p).Actions (h.deref p).Actions.length none w

/-- The struct `UndoStack` (lines 46-50) without its mutex. -/
structure UndoStack where
  operations : List (Option Nat)
  nextDoIndex : Int
  deriving DecidableEq, Repr

/-- The zero value `UndoStack{}`. -/
def UndoStack.zero : UndoStack := ⟨[], 0⟩

/-- The index expression `xs[i]`. -/
def index {α : Type} (xs : List α) (i : Int) : Except Panic α :=
  if i < 0 then .error .indexOutOfRange
  else
    match xs.get? i.toNat with
    | some x => .ok x
    | none => .error .indexOutOfRange

/-- The slice expression `xs[:n]` on a slice whose capacity is its length. -/
def sliceTo {α : Type} (xs : List α) (n : Int) : Except Panic (List α) :=
  if n < 0 ∨ (xs.length : Int) < n then .error .sliceBoundsOutOfRange
  else .ok (xs.take n.toNat)

/-- The method `checkNextDoIndex` (lines 52-59). -/
def UndoStack.checkNextDoIndex (us : UndoStack) : UndoStack :=
  let us : UndoStack :=
    if us.nextDoIndex > (us.operations.length : Int) then
      { us with nextDoIndex := (us.operations.length : Int) }
    else us
  if us.nextDoIndex < 0 then { us with nextDoIndex := 0 } else us

/-- What a call of `Do`, `Redo` or `Undo` gives: the stack and the trace when
the call ends, and either the returned error or a panic. -/
structure Result where
  us : UndoStack
  world : List Call
  out : Except Panic (Option MultiError)
  deriving DecidableEq

/-- Lines 75-81 of `Do`: for a non-nil `op`, drop the entries from
`nextDoIndex` on and append `op`. -/
def UndoStack.appendOp (us : UndoStack) (op : Option Nat) : Except Panic UndoStack :=
  match op with
  | none => .ok us
  | some p =>
    if us.nextDoIndex < (us.operations.length : Int) then
      match sliceTo us.operations us.nextDoIndex with
      | .error e => .error e
      | .ok ops => .ok { us with operations := ops ++ [some p] }
    else .ok { us with operations := us.operations ++ [some p] }

/-- The method `Do` (lines 64-89). -/
def UndoStack.Do (h : Host) (us : UndoStack) (op : Option Nat) (w : List Call) : Result :=
  let us := us.checkNextDoIndex
  match us.appendOp op with
  | .error e => ⟨us, w, .error e⟩
  | .ok us =>
    if us.nextDoIndex ≥ (us.operations.length : Int) then ⟨us, w, .ok none⟩
    else
      match index us.operations us.nextDoIndex with
      | .error e => ⟨us, w, .error e⟩
      | .ok o =>
        let r := Operation.do_ h o w
        match r.out with
        | .error e => ⟨us, r.world, .error e⟩
        | .ok err => ⟨{ us with nextDoIndex := us.nextDoIndex + 1 }, r.world, .ok err⟩

/-- The method `Redo` (lines 94-105). -/
def UndoStack.Redo (h : Host) (us : UndoStack) (w : List Call) : Result :=
  let us := us.checkNextDoIndex
  if us.nextDoIndex ≥ (us.operations.length : Int) then ⟨us, w, .ok none⟩
  else
    match index us.operations us.nextDoIndex with
    | .error e => ⟨us, w, .error e⟩
    | .ok o =>
      let r := Operation.do_ h o w
      match r.out with
      | .error e => ⟨us, r.world, .error e⟩
      | .ok err => ⟨{ us with nextDoIndex := us.nextDoIndex + 1 }, r.world, .ok err⟩

/-- The method `Undo` (lines 110-121). The decrement comes before the entry is
read, so a panic there leaves the cursor decremented. -/
def UndoStack.Undo (h : Host) (us : UndoStack) (w : List Call) : Result :=
  let us := us.checkNextDoIndex
  if us.nextDoIndex ≤ 0 then ⟨us, w, .ok none⟩
  else
    let us : UndoStack := { us with nextDoIndex := us.nextDoIndex - 1 }
    match index us.operations us.nextDoIndex with
    | .error e => ⟨us, w, .error e⟩
    | .ok o =>
      let r := Operation.undo h o w
      ⟨us, r.world, r.out⟩

/-- The method `Clear` (lines 124-129). -/
def UndoStack.Clear (us : UndoStack) : UndoStack :=
  let us : UndoStack := { us with operations := [] }
  us.checkNextDoIndex

/-- The method `State` (lines 132-138): the stack as the call leaves it, and
the pair `(canBeUndone, canBeRedone)`. The difference on line 136 is taken on
the integers: it is the value the code computes as long as
`len(operations) - nextDoIndex` fits an `int`, which excludes only cursors so
far below zero that the subtraction overflows. -/
def UndoStack.State (us : UndoStack) : UndoStack × (Int × Int) :=
  let canBeUndone := us.nextDoIndex
  let canBeRedone := (us.operations.length : Int) - us.nextDoIndex
  (us, (canBeUndone, canBeRedone))

/-- The invariant `0 <= nextDoIndex <= len(operations)`. -/
def UndoStack.inRange (us : UndoStack) : Prop :=
  0 ≤ us.nextDoIndex ∧ us.nextDoIndex ≤ (us.operations.length : Int)

instance (us : UndoStack) : Decidable us.inRange :=
  inferInstanceAs
    (Decidable (0 ≤ us.nextDoIndex ∧ us.nextDoIndex ≤ (us.operations.length : Int)))

/-- A call of one of the five public methods. -/
inductive Cmd where
  | Do (op : Option Nat)
  | Undo
  | Redo
  | Clear
  | State
  deriving DecidableEq, Repr

/-- What a public call returns. -/
inductive Value where
  | err (e : Option MultiError)
  | unit
  | counts (canBeUndone canBeRedone : Int)
  deriving DecidableEq, Repr

/-- One public call: the stack and the trace afterwards, and what it returned. -/
def UndoStack.call (h : Host) (c : Cmd) (us : UndoStack) (w : List Call) :
    UndoStack × List Call × Except Panic Value :=
  match c with
  | Cmd.Do op => let r := us.Do h op w; (r.us, r.world, r.out.map Value.err)
  | Cmd.Undo => let r := us.Undo h w; (r.us, r.world, r.out.map Value.err)
  | Cmd.Redo => let r := us.Redo h w; (r.us, r.world, r.out.map Value.err)
  | Cmd.Clear => (us.Clear, w, .ok Value.unit)
  | Cmd.State => let r := us.State; (r.1, w, .ok (Value.counts r.2.1 r.2.2))

/-- A sequence of public calls made one after the other; a panic ends the
run. The result is the final stack, the final trace and what the calls made
returned, in order. -/
def UndoStack.run (h : Host) : List Cmd → UndoStack → List Call →
    UndoStack × List Call × List (Except Panic Value)
  | [], us, w => (us, w, [])
  | c :: cs, us, w =>
    match us.call h c w with
    | (us1, w1, .error e) => (us1, w1, [.error e])
    | (us1, w1, .ok v) =>
      let r := UndoStack.run h cs us1 w1
      (r.1, r.2.1, .ok v :: r.2.2)

/-- The states a host can bring the stack into: the zero value, and the state
any public call leaves behind (whatever the host did to its actions in
between, and also when the call panicked and the host recovered). -/
inductive Reachable (h : Host) : UndoStack → Prop where
  | zero : Reachable h UndoStack.zero
  | call (c : Cmd) (us : UndoStack) (w : List Call) :
      Reachable h us → Reachable h (us.call h c w).1

/-- A host for examples: operation `p` has the actions `10 * p + 1`,
`10 * p + 2`; the `Do` of an action with an odd identity fails, every `Undo`
succeeds. -/
def exampleHost : Host where
  deref p := ⟨"op", [10 * p + 1, 10 * p + 2]⟩
  ret _ c :=
    match c with
    | Call.Do a => if a % 2 = 1 then some "failed" else none
    | Call.Undo _ => none


/-- What each of the calls `cs`, made one after the other from the trace `w`,
returns: the first is made at `w`, the next after it has been recorded. -/
def Host.returns (h : Host) : List Call → List Call → List (Option GoError)
  | _, [] => []
  | w, c :: cs => h.ret w c :: Host.returns h (w ++ [c]) cs

/-- The errors held by a `*multierror.Error`, none for nil. -/
def errorsOf (err : Option MultiError) : List GoError :=
  match err with
  | none => []
  | some m => m.Errors

/-- The states reached from the zero value by public calls in which no `Do`
is given an operation that the stack holds below its cursor at that moment. -/
inductive ReachableDistinct (h : Host) : UndoStack → Prop where
  | zero : ReachableDistinct h UndoStack.zero
  | call (c : Cmd) (us : UndoStack) (w : List Call) :
      ReachableDistinct h us →
      (∀ p : Nat, c = Cmd.Do (some p) →
        some p ∉ us.operations.take us.nextDoIndex.toNat) →
      ReachableDistinct h (us.call h c w).1

/-- The calls `do()` makes on the operation at `p`, in order. -/
def Host.doCalls (h : Host) (p : Nat) : List Call :=
  (h.deref p).Actions.map Call.Do

/-- The calls `undo()` makes on the operation at `p`, in order. -/
def Host.undoCalls (h : Host) (p : Nat) : List Call :=
  (h.deref p).Actions.reverse.map Call.Undo

/-- The subtraction `a - b` of two Go `int` values (64 bits, two's
complement): the difference of the integers, wrapped into
`[-2^63, 2^63)`. -/
def goIntSub (a b : Int) : Int :=
  (a - b + 9223372036854775808) % 18446744073709551616 - 9223372036854775808

/-! ## Auxiliary lemmas -/

theorem checkNextDoIndex_eq (us : UndoStack) :
    us.checkNextDoIndex = ⟨us.operations, max 0 (min us.nextDoIndex (us.operations.length : Int))⟩ := by
  obtain ⟨ops, i⟩ := us
  unfold UndoStack.checkNextDoIndex
  by_cases h1 : i > (ops.length : Int)
  · have h2 : ¬ ((ops.length : Int) < 0) := by omega
    simp only [h1, if_true, h2, if_false, UndoStack.mk.injEq, true_and]
    omega
  · by_cases h2 : i < 0
    · simp only [h1, if_false, h2, if_true, UndoStack.mk.injEq, true_and]
      omega
    · simp only [h1, if_false, h2, UndoStack.mk.injEq, true_and]
      omega

theorem checkNextDoIndex_operations (us : UndoStack) :
    us.checkNextDoIndex.operations = us.operations := by
  rw [checkNextDoIndex_eq]

theorem checkNextDoIndex_inRange (us : UndoStack) : us.checkNextDoIndex.inRange := by
  rw [checkNextDoIndex_eq]
  unfold UndoStack.inRange
  simp only []
  omega

theorem checkNextDoIndex_of_inRange (us : UndoStack) (hr : us.inRange) :
    us.checkNextDoIndex = us := by
  unfold UndoStack.inRange at hr
  rw [checkNextDoIndex_eq]
  obtain ⟨ops, i⟩ := us
  simp only [UndoStack.mk.injEq, true_and] at hr ⊢
  omega

theorem index_eq_ok {α : Type} (xs : List α) (i : Int) (x : α) (h0 : 0 ≤ i)
    (hx : xs.get? i.toNat = some x) : index xs i = .ok x := by
  unfold index
  rw [if_neg (by omega), hx]

theorem index_lt {α : Type} (xs : List α) (i : Int) (h0 : 0 ≤ i) (h1 : i < (xs.length : Int)) :
    ∃ x, xs.get? i.toNat = some x ∧ index xs i = .ok x := by
  have hlt : i.toNat < xs.length := by omega
  refine ⟨xs.get ⟨i.toNat, hlt⟩, ?_, ?_⟩
  · exact List.get?_eq_get hlt
  · exact index_eq_ok xs i _ h0 (List.get?_eq_get hlt)

theorem appendOp_some (us : UndoStack) (p : Nat) (hr : us.inRange) :
    us.appendOp (some p) =
      .ok ⟨us.operations.take us.nextDoIndex.toNat ++ [some p], us.nextDoIndex⟩ := by
  unfold UndoStack.inRange at hr
  unfold UndoStack.appendOp
  simp only []
  split
  · unfold sliceTo
    rw [if_neg (by omega)]
  · have : us.operations.length ≤ us.nextDoIndex.toNat := by omega
    rw [List.take_of_length_le this]

theorem errorOrNil_eq (err : Option MultiError) :
    MultiError.ErrorOrNil err = if errorsOf err = [] then none else some ⟨errorsOf err⟩ := by
  cases err with
  | none => rfl
  | some m =>
    cases m with
    | mk es =>
      cases es <;> simp [MultiError.ErrorOrNil, errorsOf]

theorem errorsOf_append (err : Option MultiError) (e : GoError) :
    errorsOf (multierror.Append err e) = errorsOf err ++ [e] := by
  cases err <;> rfl

theorem doLoop_eq (h : Host) (acts : List Nat) (err : Option MultiError) (w : List Call) :
    (Operation.doLoop h acts err w).2 = w ++ acts.map Call.Do ∧
    errorsOf (Operation.doLoop h acts err w).1 =
      errorsOf err ++ (h.returns w (acts.map Call.Do)).filterMap id := by
  induction acts generalizing err w with
  | nil => simp [Operation.doLoop, Host.returns]
  | cons a rest ih =>
    unfold Operation.doLoop
    simp only [List.map_cons, Host.returns]
    cases hr : h.ret w (Call.Do a) with
    | none =>
      simp only []
      obtain ⟨h1, h2⟩ := ih err (w ++ [Call.Do a])
      rw [h1, h2]
      simp
    | some e =>
      simp only []
      obtain ⟨h1, h2⟩ := ih (multierror.Append err e) (w ++ [Call.Do a])
      rw [h1, h2, errorsOf_append]
      simp

theorem undoLoop_eq (h : Host) (acts : List Nat) (n : Nat) (hn : n ≤ acts.length)
    (err : Option MultiError) (w : List Call) :
    Operation.undoLoop h acts n err w =
      ⟨w ++ (acts.take n).reverse.map Call.Undo,
       .ok (MultiError.ErrorOrNil (some ⟨errorsOf err ++
          (h.returns w ((acts.take n).reverse.map Call.Undo)).filterMap id⟩))⟩ := by
  induction n generalizing err w with
  | zero =>
    unfold Operation.undoLoop
    simp [Host.returns, errorOrNil_eq, errorsOf]
  | succ n ih =>
    have hlt : n < acts.length := by omega
    have hget : acts.get? n = some (acts.get ⟨n, hlt⟩) := List.get?_eq_get hlt
    have htake : (acts.take (n + 1)).reverse = acts.get ⟨n, hlt⟩ :: (acts.take n).reverse := by
      rw [List.take_succ, List.getElem?_eq_getElem hlt]
      simp
    unfold Operation.undoLoop
    rw [hget, htake]
    simp only [List.map_cons, Host.returns]
    cases hr : h.ret w (Call.Undo (acts.get ⟨n, hlt⟩)) with
    | none =>
      simp only []
      rw [ih (by omega)]
      simp
    | some e =>
      simp only []
      rw [ih (by omega), errorsOf_append]
      simp


theorem do_some (h : Host) (p : Nat) (w : List Call) :
    Operation.do_ h (some p) w =
      ⟨w ++ (h.deref p).Actions.map Call.Do,
       .ok (MultiError.ErrorOrNil (some
         ⟨(h.returns w ((h.deref p).Actions.map Call.Do)).filterMap id⟩))⟩ := by
  obtain ⟨h1, h2⟩ := doLoop_eq h (h.deref p).Actions none w
  unfold Operation.do_
  simp only [h1, Outcome.mk.injEq, true_and, Except.ok.injEq]
  rw [errorOrNil_eq, errorOrNil_eq, h2]
  simp [errorsOf]

theorem undo_some (h : Host) (p : Nat) (w : List Call) :
    Operation.undo h (some p) w =
      ⟨w ++ (h.deref p).Actions.reverse.map Call.Undo,
       .ok (MultiError.ErrorOrNil (some
         ⟨(h.returns w ((h.deref p).Actions.reverse.map Call.Undo)).filterMap id⟩))⟩ := by
  unfold Operation.undo
  simp only []
  rw [undoLoop_eq h _ _ (le_refl _)]
  simp [errorsOf]

theorem Do_some_of_inRange (h : Host) (us : UndoStack) (p : Nat) (w : List Call)
    (hr : us.inRange) :
    us.Do h (some p) w =
      ⟨⟨us.operations.take us.nextDoIndex.toNat ++ [some p], us.nextDoIndex + 1⟩,
       (Operation.do_ h (some p) w).world, (Operation.do_ h (some p) w).out⟩ := by
  have hr2 := hr
  unfold UndoStack.inRange at hr2
  have hlen : ((us.operations.take us.nextDoIndex.toNat ++ [some p]).length : Int)
      = us.nextDoIndex + 1 := by
    simp only [List.length_append, List.length_take, List.length_singleton]
    omega
  have hget : (us.operations.take us.nextDoIndex.toNat ++ [some p]).get? us.nextDoIndex.toNat
      = some (some p) := by
    have : (us.operations.take us.nextDoIndex.toNat).length = us.nextDoIndex.toNat := by
      simp only [List.length_take]; omega
    simp [List.getElem?_append_right, this]
  unfold UndoStack.Do
  simp only [checkNextDoIndex_of_inRange us hr, appendOp_some us p hr]
  rw [if_neg (by rw [hlen]; omega)]
  simp only [index_eq_ok _ _ _ hr2.1 hget]
  rw [do_some]

theorem Do_checkNextDoIndex (h : Host) (us : UndoStack) (op : Option Nat) (w : List Call) :
    us.Do h op w = us.checkNextDoIndex.Do h op w := by
  unfold UndoStack.Do
  rw [checkNextDoIndex_of_inRange _ (checkNextDoIndex_inRange us)]


theorem Do_none (h : Host) (us : UndoStack) (w : List Call) :
    us.Do h none w = us.Redo h w := by
  unfold UndoStack.Do UndoStack.Redo UndoStack.appendOp
  rfl

theorem Redo_of_ge (h : Host) (us : UndoStack) (w : List Call) (hr : us.inRange)
    (hge : (us.operations.length : Int) ≤ us.nextDoIndex) :
    us.Redo h w = ⟨us, w, .ok none⟩ := by
  unfold UndoStack.Redo
  simp only [checkNextDoIndex_of_inRange us hr]
  rw [if_pos (by omega)]

theorem Redo_of_lt (h : Host) (us : UndoStack) (w : List Call) (p : Nat) (hr : us.inRange)
    (hget : us.operations.get? us.nextDoIndex.toNat = some (some p)) :
    us.Redo h w =
      ⟨⟨us.operations, us.nextDoIndex + 1⟩,
       (Operation.do_ h (some p) w).world, (Operation.do_ h (some p) w).out⟩ := by
  have hr2 := hr
  unfold UndoStack.inRange at hr2
  have hlt : us.nextDoIndex.toNat < us.operations.length := by
    rcases Nat.lt_or_ge us.nextDoIndex.toNat us.operations.length with hl | hl
    · exact hl
    · rw [List.get?_eq_none.mpr hl] at hget
      exact absurd hget (by simp)
  unfold UndoStack.Redo
  simp only [checkNextDoIndex_of_inRange us hr]
  rw [if_neg (by omega)]
  simp only [index_eq_ok _ _ _ hr2.1 hget]
  rw [do_some]

theorem Undo_of_le (h : Host) (us : UndoStack) (w : List Call) (hr : us.inRange)
    (hle : us.nextDoIndex ≤ 0) :
    us.Undo h w = ⟨us, w, .ok none⟩ := by
  unfold UndoStack.Undo
  simp only [checkNextDoIndex_of_inRange us hr]
  rw [if_pos hle]

theorem Undo_of_pos (h : Host) (us : UndoStack) (w : List Call) (p : Nat) (hr : us.inRange)
    (hpos : 0 < us.nextDoIndex)
    (hget : us.operations.get? (us.nextDoIndex - 1).toNat = some (some p)) :
    us.Undo h w =
      ⟨⟨us.operations, us.nextDoIndex - 1⟩,
       (Operation.undo h (some p) w).world, (Operation.undo h (some p) w).out⟩ := by
  unfold UndoStack.Undo
  simp only [checkNextDoIndex_of_inRange us hr]
  rw [if_neg (by omega)]
  simp only [index_eq_ok _ _ _ (by omega : (0 : Int) ≤ us.nextDoIndex - 1) hget]

theorem Redo_inRange (h : Host) (us : UndoStack) (w : List Call) :
    (us.Redo h w).us.inRange := by
  have hc := checkNextDoIndex_inRange us
  unfold UndoStack.Redo
  simp only []
  split
  · exact hc
  · split
    · exact hc
    · split
      · exact hc
      · unfold UndoStack.inRange at hc ⊢
        simp only []
        omega

theorem Undo_inRange (h : Host) (us : UndoStack) (w : List Call) :
    (us.Undo h w).us.inRange := by
  have hc := checkNextDoIndex_inRange us
  unfold UndoStack.Undo
  simp only []
  split
  · exact hc
  · have : (⟨us.checkNextDoIndex.operations, us.checkNextDoIndex.nextDoIndex - 1⟩ :
        UndoStack).inRange := by
      unfold UndoStack.inRange at hc ⊢
      simp only []
      omega
    split
    · exact this
    · exact this

theorem Do_inRange (h : Host) (us : UndoStack) (op : Option Nat) (w : List Call) :
    (us.Do h op w).us.inRange := by
  cases op with
  | none => rw [Do_none]; exact Redo_inRange h us w
  | some p =>
    have hc := checkNextDoIndex_inRange us
    rw [Do_checkNextDoIndex, Do_some_of_inRange h _ p w hc]
    unfold UndoStack.inRange at hc ⊢
    simp only [List.length_append, List.length_take, List.length_singleton]
    omega

theorem Clear_eq (us : UndoStack) : us.Clear = ⟨[], 0⟩ := by
  unfold UndoStack.Clear
  rw [checkNextDoIndex_eq]
  simp


theorem returns_length (h : Host) (cs : List Call) (w : List Call) :
    (h.returns w cs).length = cs.length := by
  induction cs generalizing w with
  | nil => rfl
  | cons c cs ih => simp [Host.returns, ih]

theorem returns_get (h : Host) (cs : List Call) (w : List Call) (i : Fin cs.length) :
    (h.returns w cs).get? i = some (h.ret (w ++ cs.take i) (cs.get i)) := by
  induction cs generalizing w with
  | nil => exact i.elim0
  | cons c cs ih =>
    obtain ⟨i, hi⟩ := i
    cases i with
    | zero => simp [Host.returns]
    | succ j =>
      have := ih (w ++ [c]) ⟨j, by simpa using hi⟩
      simpa [Host.returns] using this

theorem errorOrNil_failed (es : List (Option GoError)) :
    (MultiError.ErrorOrNil (some ⟨es.filterMap id⟩) = none ↔ ∀ r ∈ es, r = none) := by
  rw [errorOrNil_eq]
  simp only [errorsOf]
  constructor
  · intro hx r hr
    by_cases hnil : es.filterMap id = []
    · cases r with
      | none => rfl
      | some e =>
        have : e ∈ es.filterMap id := by
          rw [List.mem_filterMap]; exact ⟨some e, hr, rfl⟩
        rw [hnil] at this
        exact absurd this (List.not_mem_nil e)
    · rw [if_neg hnil] at hx
      exact absurd hx (by simp)
  · intro hall
    have : es.filterMap id = [] := by
      rw [List.filterMap_eq_nil_iff]
      intro r hr
      rw [hall r hr]; rfl
    rw [if_pos this]

/-! ## The claims -/

/-- C1: whatever the state of the stack (cursor negative or beyond the end
included), after `Do` (with an operation or nil), `Undo`, `Redo` and `Clear`
the cursor satisfies `0 <= nextDoIndex <= len(operations)`, also when the
call ends in a panic; `State` leaves the stack as it is; and so every
reachable state satisfies the invariant. -/
theorem C1_cursor_in_range_after_every_call (h : Host) :
    (∀ (us : UndoStack) (op : Option Nat) (w : List Call),
      (us.Do h op w).us.inRange ∧ (us.Undo h w).us.inRange ∧ (us.Redo h w).us.inRange ∧
      us.Clear.inRange ∧ us.State.1 = us) ∧
    (∀ us : UndoStack, Reachable h us → us.inRange) := by
  have hall : ∀ (us : UndoStack) (op : Option Nat) (w : List Call),
      (us.Do h op w).us.inRange ∧ (us.Undo h w).us.inRange ∧ (us.Redo h w).us.inRange ∧
      us.Clear.inRange ∧ us.State.1 = us := by
    intro us op w
    refine ⟨Do_inRange h us op w, Undo_inRange h us w, Redo_inRange h us w, ?_, rfl⟩
    rw [Clear_eq]
    decide
  refine ⟨hall, ?_⟩
  intro us hreach
  induction hreach with
  | zero => decide
  | call c us w _ ih =>
    cases c with
    | Do op => exact (hall us op w).1
    | Undo => exact (hall us none w).2.1
    | Redo => exact (hall us none w).2.2.1
    | Clear => exact (hall us none w).2.2.2.1
    | State => exact ih

/-- C1, at the stack reached by `Do(op)`, `Undo()` and at a stack whose cursor
is out of range. -/
theorem C1_cursor_in_range_witness :
    Reachable exampleHost ⟨[some 1], 0⟩ ∧ (⟨[some 1], 0⟩ : UndoStack).inRange ∧
    ((⟨[some 1, some 2], 7⟩ : UndoStack).Undo exampleHost []).us.inRange :=
  ⟨Reachable.call Cmd.Undo _ [] (Reachable.call (Cmd.Do (some 1)) _ [] Reachable.zero),
   (C1_cursor_in_range_after_every_call exampleHost).2 _
     (Reachable.call Cmd.Undo _ [] (Reachable.call (Cmd.Do (some 1)) _ [] Reachable.zero)),
   ((C1_cursor_in_range_after_every_call exampleHost).1 ⟨[some 1, some 2], 7⟩ none []).2.1⟩


/-- C2: in an in-range state, `Do(op)` with a non-nil `op` leaves `operations`
equal to the old `operations[0:nextDoIndex]` followed by `op` and the cursor
equal to the new length, so `State()` is `(old canBeUndone + 1, 0)`, every
slot from the old cursor on holds nothing but `op`, and a following `Redo()`
invokes no action, returns no error and changes nothing. -/
theorem C2_do_discards_redo_suffix (h : Host) (us : UndoStack) (p : Nat) (w : List Call)
    (hr : us.inRange) :
    (us.Do h (some p) w).us.operations = us.operations.take us.nextDoIndex.toNat ++ [some p] ∧
    (us.Do h (some p) w).us.nextDoIndex = ((us.Do h (some p) w).us.operations.length : Int) ∧
    (us.Do h (some p) w).us.State.2 = (us.State.2.1 + 1, 0) ∧
    (∀ i : Nat, us.nextDoIndex.toNat ≤ i →
      (us.Do h (some p) w).us.operations.get? i =
        if i = us.nextDoIndex.toNat then some (some p) else none) ∧
    (∀ w2 : List Call,
      (us.Do h (some p) w).us.Redo h w2 = ⟨(us.Do h (some p) w).us, w2, .ok none⟩) := by
  have hr2 := hr
  unfold UndoStack.inRange at hr2
  have htake : (us.operations.take us.nextDoIndex.toNat).length = us.nextDoIndex.toNat := by
    simp only [List.length_take]; omega
  have hlen : ((us.operations.take us.nextDoIndex.toNat ++ [some p]).length : Int)
      = us.nextDoIndex + 1 := by
    simp only [List.length_append, htake, List.length_singleton]
    omega
  rw [Do_some_of_inRange h us p w hr]
  refine ⟨rfl, hlen.symm, ?_, ?_, ?_⟩
  · simp only [UndoStack.State, hlen]
    simp
  · intro i hi
    by_cases hi2 : i = us.nextDoIndex.toNat
    · rw [if_pos hi2, hi2]
      simp [List.getElem?_append_right, htake]
    · rw [if_neg hi2]
      apply List.get?_eq_none.mpr
      simp only [List.length_append, htake, List.length_singleton]
      omega
  · intro w2
    apply Redo_of_ge
    · unfold UndoStack.inRange
      simp only [hlen]
      omega
    · simp only [hlen]
      omega

/-- C2 on the scenario of the specification: `op1`, `op2` done, one `Undo()`,
then `Do(op3)`. -/
theorem C2_do_discards_redo_suffix_witness :
    (⟨[some 1, some 2], 1⟩ : UndoStack).inRange ∧
    ((⟨[some 1, some 2], 1⟩ : UndoStack).Do exampleHost (some 3) []).us.operations
      = [some 1, some 3] ∧
    ((⟨[some 1, some 2], 1⟩ : UndoStack).Do exampleHost (some 3) []).us.State.2 = (2, 0) :=
  ⟨by decide,
   (C2_do_discards_redo_suffix exampleHost ⟨[some 1, some 2], 1⟩ 3 [] (by decide)).1,
   (C2_do_discards_redo_suffix exampleHost ⟨[some 1, some 2], 1⟩ 3 [] (by decide)).2.2.1⟩

/-- C3: whatever the state, `Do(op)` with a non-nil `op` finds the cursor
below the length after the append (the early return is not taken), reads
`op` itself at the cursor, invokes the `Do` of the actions of `op`, each once
and in order, and nothing else, and advances the cursor by one. -/
theorem C3_do_executes_the_supplied_op (h : Host) (us : UndoStack) (p : Nat) (w : List Call) :
    (∃ us1 : UndoStack, us.checkNextDoIndex.appendOp (some p) = .ok us1 ∧
      ¬ (us1.nextDoIndex ≥ (us1.operations.length : Int)) ∧
      index us1.operations us1.nextDoIndex = .ok (some p) ∧
      (us.Do h (some p) w).us = { us1 with nextDoIndex := us1.nextDoIndex + 1 }) ∧
    (us.Do h (some p) w).world = w ++ (h.deref p).Actions.map Call.Do ∧
    (us.Do h (some p) w).world = (Operation.do_ h (some p) w).world ∧
    (us.Do h (some p) w).out = (Operation.do_ h (some p) w).out ∧
    (∃ err, (us.Do h (some p) w).out = .ok err) := by
  have hc := checkNextDoIndex_inRange us
  have hc2 := hc
  unfold UndoStack.inRange at hc2
  have htake : (us.checkNextDoIndex.operations.take us.checkNextDoIndex.nextDoIndex.toNat).length
      = us.checkNextDoIndex.nextDoIndex.toNat := by
    simp only [List.length_take]; omega
  rw [Do_checkNextDoIndex, Do_some_of_inRange h _ p w hc, appendOp_some _ p hc]
  refine ⟨⟨_, rfl, ?_, ?_, rfl⟩, ?_, rfl, rfl, ?_⟩
  · simp only [List.length_append, htake, List.length_singleton]
    omega
  · apply index_eq_ok _ _ _ hc2.1
    simp [List.getElem?_append_right, htake]
  · rw [do_some]
  · rw [do_some]
    exact ⟨_, rfl⟩

/-- C4: `do()` on an operation invokes `Do` on each of its actions once, in
forward order, whatever they return; it returns no error exactly when every
one of these calls returned none, and otherwise the aggregate of all the
errors returned, in the order of the calls. -/
theorem C4_do_runs_all_actions_forward (h : Host) (p : Nat) (w : List Call) :
    (Operation.do_ h (some p) w).world = w ++ (h.deref p).Actions.map Call.Do ∧
    (∀ i : Fin ((h.deref p).Actions.map Call.Do).length,
      (h.returns w ((h.deref p).Actions.map Call.Do)).get? i =
        some (h.ret (w ++ ((h.deref p).Actions.map Call.Do).take i)
          (((h.deref p).Actions.map Call.Do).get i))) ∧
    ((Operation.do_ h (some p) w).out = .ok none ↔
      ∀ r ∈ h.returns w ((h.deref p).Actions.map Call.Do), r = none) ∧
    (Operation.do_ h (some p) w).out =
      .ok (if (h.returns w ((h.deref p).Actions.map Call.Do)).filterMap id = [] then none
           else some ⟨(h.returns w ((h.deref p).Actions.map Call.Do)).filterMap id⟩) := by
  rw [do_some]
  refine ⟨rfl, returns_get h _ w, ?_, ?_⟩
  · simp only [Except.ok.injEq]
    exact errorOrNil_failed _
  · simp only [errorOrNil_eq, errorsOf]

/-- C4 on an operation whose first action fails: the second action is still
invoked and the failure is returned. -/
theorem C4_do_runs_all_actions_forward_witness :
    (Operation.do_ exampleHost (some 1) []).world = [Call.Do 11, Call.Do 12] ∧
    (Operation.do_ exampleHost (some 1) []).out = .ok (some ⟨["failed"]⟩) :=
  ⟨(C4_do_runs_all_actions_forward exampleHost 1 []).1,
   (C4_do_runs_all_actions_forward exampleHost 1 []).2.2.2⟩

/-- C5: `undo()` on an operation invokes `Undo` on each of its actions once,
last action first, whatever they return; it returns no error exactly when
every one of these calls returned none, and otherwise the aggregate of all the
errors returned, in the order of the calls. The actions are visited in the
reverse of the order in which `do()` visits them. -/
theorem C5_undo_runs_all_actions_backward (h : Host) (p : Nat) (w : List Call) :
    (Operation.undo h (some p) w).world = w ++ (h.deref p).Actions.reverse.map Call.Undo ∧
    (∀ i : Fin ((h.deref p).Actions.reverse.map Call.Undo).length,
      (h.returns w ((h.deref p).Actions.reverse.map Call.Undo)).get? i =
        some (h.ret (w ++ ((h.deref p).Actions.reverse.map Call.Undo).take i)
          (((h.deref p).Actions.reverse.map Call.Undo).get i))) ∧
    ((Operation.undo h (some p) w).out = .ok none ↔
      ∀ r ∈ h.returns w ((h.deref p).Actions.reverse.map Call.Undo), r = none) ∧
    (Operation.undo h (some p) w).out =
      .ok (if (h.returns w ((h.deref p).Actions.reverse.map Call.Undo)).filterMap id = []
           then none
           else some ⟨(h.returns w ((h.deref p).Actions.reverse.map Call.Undo)).filterMap id⟩) ∧
    ((Operation.undo h (some p) w).world.drop w.length).map Call.action =
      (((Operation.do_ h (some p) w).world.drop w.length).map Call.action).reverse := by
  rw [undo_some, do_some]
  refine ⟨rfl, returns_get h _ w, ?_, ?_, ?_⟩
  · simp only [Except.ok.injEq]
    exact errorOrNil_failed _
  · simp only [errorOrNil_eq, errorsOf]
  · simp only [List.drop_left, List.map_map, List.map_reverse]
    congr 1

/-- C5 on an operation with two actions. -/
theorem C5_undo_runs_all_actions_backward_witness :
    (Operation.undo exampleHost (some 1) []).world = [Call.Undo 12, Call.Undo 11] ∧
    (Operation.undo exampleHost (some 1) []).out = .ok none :=
  ⟨(C5_undo_runs_all_actions_backward exampleHost 1 []).1,
   (C5_undo_runs_all_actions_backward exampleHost 1 []).2.2.2.1⟩


theorem Redo_us_host_free (h1 h2 : Host) (us : UndoStack) (w1 w2 : List Call) :
    (us.Redo h1 w1).us = (us.Redo h2 w2).us := by
  unfold UndoStack.Redo
  simp only []
  split
  · rfl
  · cases hi : index us.checkNextDoIndex.operations us.checkNextDoIndex.nextDoIndex with
    | error e => rfl
    | ok o =>
      cases o with
      | none => rfl
      | some p => simp only [do_some]

theorem Undo_us_host_free (h1 h2 : Host) (us : UndoStack) (w1 w2 : List Call) :
    (us.Undo h1 w1).us = (us.Undo h2 w2).us := by
  unfold UndoStack.Undo
  simp only []
  split
  · rfl
  · cases hi : index us.checkNextDoIndex.operations (us.checkNextDoIndex.nextDoIndex - 1) with
    | error e => rfl
    | ok o => rfl

theorem Do_us_host_free (h1 h2 : Host) (us : UndoStack) (op : Option Nat) (w1 w2 : List Call) :
    (us.Do h1 op w1).us = (us.Do h2 op w2).us := by
  cases op with
  | none => rw [Do_none, Do_none]; exact Redo_us_host_free h1 h2 us w1 w2
  | some p =>
    rw [Do_checkNextDoIndex h1, Do_checkNextDoIndex h2,
      Do_some_of_inRange h1 _ p w1 (checkNextDoIndex_inRange us),
      Do_some_of_inRange h2 _ p w2 (checkNextDoIndex_inRange us)]

/-- C6, as stated, fails: after `Do(op)` and `Undo()` the stack holds one
operation with the cursor at 0; there `Undo()` does nothing and `Redo()`
moves the cursor to 1. -/
theorem C6_undo_redo_counterexample :
    (UndoStack.zero.run exampleHost [Cmd.Do (some 1), Cmd.Undo] []).1 = ⟨[some 1], 0⟩ ∧
    (((⟨[some 1], 0⟩ : UndoStack).Undo exampleHost []).us.Redo exampleHost
      ((⟨[some 1], 0⟩ : UndoStack).Undo exampleHost []).world).us = ⟨[some 1], 1⟩ ∧
    (((⟨[some 1], 0⟩ : UndoStack).Undo exampleHost []).us.Redo exampleHost
      ((⟨[some 1], 0⟩ : UndoStack).Undo exampleHost []).world).us ≠ ⟨[some 1], 0⟩ := by
  decide

/-- C6, amended: in an in-range state in which an operation can be undone
(`nextDoIndex > 0`, the entry below the cursor an operation), or whose list
is empty, `Undo()` followed immediately by `Redo()` leaves `operations` and
`nextDoIndex` as they were, and both calls return. -/
theorem C6_undo_redo_restores_state (h : Host) (us : UndoStack) (w : List Call) (p : Nat)
    (hr : us.inRange)
    (hcase : us.operations = [] ∨
      (0 < us.nextDoIndex ∧ us.operations.get? (us.nextDoIndex - 1).toNat = some (some p))) :
    ((us.Undo h w).us.Redo h (us.Undo h w).world).us = us ∧
    (∃ e1, (us.Undo h w).out = .ok e1) ∧
    (∃ e2, ((us.Undo h w).us.Redo h (us.Undo h w).world).out = .ok e2) := by
  have hr2 := hr
  unfold UndoStack.inRange at hr2
  rcases hcase with hnil | ⟨hpos, hget⟩
  · have hlen : us.operations.length = 0 := by rw [hnil]; rfl
    rw [Undo_of_le h us w hr (by omega)]
    simp only []
    rw [Redo_of_ge h us w hr (by omega)]
    exact ⟨rfl, ⟨_, rfl⟩, ⟨_, rfl⟩⟩
  · have hlt : (us.nextDoIndex - 1).toNat < us.operations.length := by
      rcases Nat.lt_or_ge (us.nextDoIndex - 1).toNat us.operations.length with hl | hl
      · exact hl
      · rw [List.get?_eq_none.mpr hl] at hget
        exact absurd hget (by simp)
    rw [Undo_of_pos h us w p hr hpos hget]
    simp only []
    rw [Redo_of_lt h _ _ p (by unfold UndoStack.inRange; simp only []; omega) hget]
    simp [undo_some, do_some]

/-- C6 amended, on a stack with two operations done. -/
theorem C6_undo_redo_restores_state_witness :
    (⟨[some 1, some 2], 2⟩ : UndoStack).inRange ∧
    (((⟨[some 1, some 2], 2⟩ : UndoStack).Undo exampleHost []).us.Redo exampleHost
      ((⟨[some 1, some 2], 2⟩ : UndoStack).Undo exampleHost []).world).us
      = ⟨[some 1, some 2], 2⟩ :=
  ⟨by decide,
   (C6_undo_redo_restores_state exampleHost ⟨[some 1, some 2], 2⟩ [] 2 (by decide)
      (Or.inr ⟨by decide, by decide⟩)).1⟩

/-- C7: in an in-range state with `canBeUndone > 0`, `Undo()` and the `Redo()`
that follows both run the operation `operations[nextDoIndex-1]`: the pair
invokes the `Undo` of its actions in reverse order, then the `Do` of the same
actions in forward order, and leaves `operations` and `nextDoIndex` as they
were. -/
theorem C7_undo_redo_same_operation (h : Host) (us : UndoStack) (w : List Call) (p : Nat)
    (hr : us.inRange) (hpos : 0 < us.State.2.1)
    (hget : us.operations.get? (us.nextDoIndex - 1).toNat = some (some p)) :
    us.Undo h w = ⟨⟨us.operations, us.nextDoIndex - 1⟩,
      (Operation.undo h (some p) w).world, (Operation.undo h (some p) w).out⟩ ∧
    (us.Undo h w).us.Redo h (us.Undo h w).world = ⟨us,
      (Operation.do_ h (some p) (us.Undo h w).world).world,
      (Operation.do_ h (some p) (us.Undo h w).world).out⟩ ∧
    (us.Undo h w).world = w ++ (h.deref p).Actions.reverse.map Call.Undo ∧
    ((us.Undo h w).us.Redo h (us.Undo h w).world).world =
      w ++ (h.deref p).Actions.reverse.map Call.Undo ++ (h.deref p).Actions.map Call.Do ∧
    ((us.Undo h w).us.Redo h (us.Undo h w).world).us = us := by
  have hr2 := hr
  unfold UndoStack.inRange at hr2
  have hpos2 : 0 < us.nextDoIndex := hpos
  have hlt : (us.nextDoIndex - 1).toNat < us.operations.length := by
    rcases Nat.lt_or_ge (us.nextDoIndex - 1).toNat us.operations.length with hl | hl
    · exact hl
    · rw [List.get?_eq_none.mpr hl] at hget
      exact absurd hget (by simp)
  rw [Undo_of_pos h us w p hr hpos2 hget]
  simp only []
  rw [Redo_of_lt h _ _ p (by unfold UndoStack.inRange; simp only []; omega) hget]
  simp [undo_some, do_some]

/-- C7 on a stack with two operations done. -/
theorem C7_undo_redo_same_operation_witness :
    (⟨[some 1, some 2], 2⟩ : UndoStack).inRange ∧
    (((⟨[some 1, some 2], 2⟩ : UndoStack).Undo exampleHost []).us.Redo exampleHost
      ((⟨[some 1, some 2], 2⟩ : UndoStack).Undo exampleHost []).world).world
      = [Call.Undo 22, Call.Undo 21, Call.Do 21, Call.Do 22] :=
  ⟨by decide,
   (C7_undo_redo_same_operation exampleHost ⟨[some 1, some 2], 2⟩ [] 2 (by decide)
      (by decide) (by decide)).2.2.2.1⟩


theorem call_Do_none (h : Host) (us : UndoStack) (w : List Call) :
    us.call h (Cmd.Do none) w = us.call h Cmd.Redo w := by
  simp only [UndoStack.call, Do_none]

theorem run_Do_none (h : Host) (cs : List Cmd) (us : UndoStack) (w : List Call) :
    us.run h (cs.map (fun c => if c = Cmd.Do none then Cmd.Redo else c)) w = us.run h cs w := by
  induction cs generalizing us w with
  | nil => rfl
  | cons c cs ih =>
    have hc : us.call h (if c = Cmd.Do none then Cmd.Redo else c) w = us.call h c w := by
      by_cases hc : c = Cmd.Do none
      · rw [if_pos hc, hc, call_Do_none]
      · rw [if_neg hc]
    simp only [List.map_cons, UndoStack.run, hc]
    split
    · rfl
    · rw [ih]

theorem errorOrNil_failed_ne (es : List (Option GoError)) :
    (MultiError.ErrorOrNil (some ⟨es.filterMap id⟩) ≠ none ↔ ∃ r ∈ es, r ≠ none) := by
  rw [Ne, errorOrNil_failed]
  push_neg
  rfl

/-- C8: `Do(nil)` and `Redo()` are the same call: from every state and trace
they invoke the same actions, return the same error and leave the same stack;
with the cursor at or beyond the end `Do(nil)` appends nothing, invokes
nothing and returns no error; `n` calls of `Do(nil)` equal `n` calls of
`Redo()`, and replacing `Do(nil)` by `Redo()` anywhere in a sequence of calls
changes nothing. -/
theorem C8_do_nil_is_redo (h : Host) :
    (∀ (us : UndoStack) (w : List Call), us.Do h none w = us.Redo h w) ∧
    (∀ (us : UndoStack) (w : List Call), (us.operations.length : Int) ≤ us.nextDoIndex →
      us.Do h none w = ⟨⟨us.operations, (us.operations.length : Int)⟩, w, .ok none⟩) ∧
    (∀ (n : Nat) (us : UndoStack) (w : List Call),
      us.run h (List.replicate n (Cmd.Do none)) w = us.run h (List.replicate n Cmd.Redo) w) ∧
    (∀ (cs : List Cmd) (us : UndoStack) (w : List Call),
      us.run h (cs.map (fun c => if c = Cmd.Do none then Cmd.Redo else c)) w
        = us.run h cs w) := by
  refine ⟨Do_none h, ?_, ?_, run_Do_none h⟩
  · intro us w hge
    have hc : us.checkNextDoIndex = ⟨us.operations, (us.operations.length : Int)⟩ := by
      rw [checkNextDoIndex_eq]
      simp only [UndoStack.mk.injEq, true_and]
      omega
    rw [Do_none]
    unfold UndoStack.Redo
    simp only [hc]
    rw [if_pos (by omega)]
  · intro n us w
    have := run_Do_none h (List.replicate n (Cmd.Do none)) us w
    rw [← this]
    simp

/-- C8 on a stack with one undone operation and on one with nothing to redo. -/
theorem C8_do_nil_is_redo_witness :
    (⟨[some 1], 0⟩ : UndoStack).Do exampleHost none [] =
      (⟨[some 1], 0⟩ : UndoStack).Redo exampleHost [] ∧
    (⟨[some 1], 1⟩ : UndoStack).Do exampleHost none [] = ⟨⟨[some 1], 1⟩, [], .ok none⟩ :=
  ⟨(C8_do_nil_is_redo exampleHost).1 ⟨[some 1], 0⟩ [],
   (C8_do_nil_is_redo exampleHost).2.1 ⟨[some 1], 1⟩ [] (by decide)⟩

/-- C9: in an in-range state the stack reached by `Do(op)`, `Redo()` or
`Undo()` is the same whatever the actions return; when an operation is run
the cursor moves by exactly one (forward for `Do` and `Redo`, back for
`Undo`) and the call returns that operation's aggregate error, which is
non-nil exactly when at least one of its actions returned an error. -/
theorem C9_cursor_moves_whatever_actions_return (h : Host) (us : UndoStack) (w : List Call)
    (hr : us.inRange) :
    (∀ (h2 : Host) (w2 : List Call) (op : Option Nat),
      (us.Do h op w).us = (us.Do h2 op w2).us ∧ (us.Redo h w).us = (us.Redo h2 w2).us ∧
      (us.Undo h w).us = (us.Undo h2 w2).us) ∧
    (∀ p : Nat, (us.Do h (some p) w).us.nextDoIndex = us.nextDoIndex + 1 ∧
      (us.Do h (some p) w).out = (Operation.do_ h (some p) w).out) ∧
    (∀ p : Nat, us.operations.get? us.nextDoIndex.toNat = some (some p) →
      (us.Redo h w).us = ⟨us.operations, us.nextDoIndex + 1⟩ ∧
      (us.Redo h w).out = (Operation.do_ h (some p) w).out) ∧
    (∀ p : Nat, 0 < us.nextDoIndex →
      us.operations.get? (us.nextDoIndex - 1).toNat = some (some p) →
      (us.Undo h w).us = ⟨us.operations, us.nextDoIndex - 1⟩ ∧
      (us.Undo h w).out = (Operation.undo h (some p) w).out) ∧
    (∀ p : Nat, ∃ e, (Operation.do_ h (some p) w).out = .ok e ∧
      (e ≠ none ↔ ∃ r ∈ h.returns w ((h.deref p).Actions.map Call.Do), r ≠ none)) ∧
    (∀ p : Nat, ∃ e, (Operation.undo h (some p) w).out = .ok e ∧
      (e ≠ none ↔ ∃ r ∈ h.returns w ((h.deref p).Actions.reverse.map Call.Undo), r ≠ none)) := by
  refine ⟨?_, ?_, ?_, ?_, ?_, ?_⟩
  · intro h2 w2 op
    exact ⟨Do_us_host_free h h2 us op w w2, Redo_us_host_free h h2 us w w2,
      Undo_us_host_free h h2 us w w2⟩
  · intro p
    rw [Do_some_of_inRange h us p w hr]
    exact ⟨rfl, rfl⟩
  · intro p hget
    rw [Redo_of_lt h us w p hr hget]
    exact ⟨rfl, rfl⟩
  · intro p hpos hget
    rw [Undo_of_pos h us w p hr hpos hget]
    exact ⟨rfl, rfl⟩
  · intro p
    rw [do_some]
    exact ⟨_, rfl, errorOrNil_failed_ne _⟩
  · intro p
    rw [undo_some]
    exact ⟨_, rfl, errorOrNil_failed_ne _⟩

/-- C9 on a stack with one operation done and one undone, with a host whose
actions with an odd identity fail. -/
theorem C9_cursor_moves_whatever_actions_return_witness :
    (⟨[some 1, some 2], 1⟩ : UndoStack).inRange ∧
    ((⟨[some 1, some 2], 1⟩ : UndoStack).Redo exampleHost []).us = ⟨[some 1, some 2], 2⟩ ∧
    ((⟨[some 1, some 2], 1⟩ : UndoStack).Redo exampleHost []).out =
      (Operation.do_ exampleHost (some 2) []).out :=
  ⟨by decide,
   (C9_cursor_moves_whatever_actions_return exampleHost ⟨[some 1, some 2], 1⟩ []
      (by decide)).2.2.1 2 (by decide)⟩

/-- C10: in an in-range state with `canBeUndone == 0`, whatever the redoable
suffix, `Undo()` leaves `operations` and `nextDoIndex` unchanged, returns no
error and invokes no action. -/
theorem C10_undo_at_zero_is_noop (h : Host) (us : UndoStack) (w : List Call)
    (hr : us.inRange) (h0 : us.State.2.1 = 0) :
    us.Undo h w = ⟨us, w, .ok none⟩ := by
  have h1 : us.nextDoIndex = 0 := h0
  exact Undo_of_le h us w hr (by omega)

/-- C10 on a stack with two undone operations. -/
theorem C10_undo_at_zero_is_noop_witness :
    (⟨[some 1, some 2], 0⟩ : UndoStack).inRange ∧
    (⟨[some 1, some 2], 0⟩ : UndoStack).State.2.1 = 0 ∧
    (⟨[some 1, some 2], 0⟩ : UndoStack).Undo exampleHost [Call.Do 11] =
      ⟨⟨[some 1, some 2], 0⟩, [Call.Do 11], .ok none⟩ :=
  ⟨by decide, by decide,
   C10_undo_at_zero_is_noop exampleHost ⟨[some 1, some 2], 0⟩ [Call.Do 11] (by decide)
     (by decide)⟩

theorem Redo_operations (h : Host) (us : UndoStack) (w : List Call) :
    (us.Redo h w).us.operations = us.operations := by
  have hc := checkNextDoIndex_operations us
  unfold UndoStack.Redo
  simp only []
  split
  · exact hc
  · split
    · exact hc
    · split
      · exact hc
      · exact hc

theorem Undo_operations (h : Host) (us : UndoStack) (w : List Call) :
    (us.Undo h w).us.operations = us.operations := by
  have hc := checkNextDoIndex_operations us
  unfold UndoStack.Undo
  simp only []
  split
  · exact hc
  · split
    · exact hc
    · exact hc

theorem goIntSub_eq (a b : Int) (hlo : (-9223372036854775808 : Int) ≤ a - b)
    (hhi : a - b ≤ 9223372036854775807) : goIntSub a b = a - b := by
  unfold goIntSub
  omega

theorem goIntSub_wraps :
    goIntSub 1 (-9223372036854775808) = -9223372036854775807 := by
  decide

theorem reachable_inRange (h : Host) (us : UndoStack) (hreach : Reachable h us) :
    us.inRange := by
  induction hreach with
  | zero => decide
  | call c us w _ ih =>
    cases c with
    | Do op => exact Do_inRange h us op w
    | Undo => exact Undo_inRange h us w
    | Redo => exact Redo_inRange h us w
    | Clear =>
      show us.Clear.inRange
      rw [Clear_eq]
      decide
    | State => exact ih

/-- C11: in an in-range state with `canBeRedone == 0`, `Redo()` leaves
`operations` and `nextDoIndex` unchanged, returns no error and invokes no
action. -/
theorem C11_redo_at_end_is_noop (h : Host) (us : UndoStack) (w : List Call)
    (hr : us.inRange) (h0 : us.State.2.2 = 0) :
    us.Redo h w = ⟨us, w, .ok none⟩ := by
  have h1 : (us.operations.length : Int) - us.nextDoIndex = 0 := h0
  exact Redo_of_ge h us w hr (by omega)

/-- C11 on a stack with two operations done. -/
theorem C11_redo_at_end_is_noop_witness :
    (⟨[some 1, some 2], 2⟩ : UndoStack).inRange ∧
    (⟨[some 1, some 2], 2⟩ : UndoStack).State.2.2 = 0 ∧
    (⟨[some 1, some 2], 2⟩ : UndoStack).Redo exampleHost [Call.Do 11] =
      ⟨⟨[some 1, some 2], 2⟩, [Call.Do 11], .ok none⟩ :=
  ⟨by decide, by decide,
   C11_redo_at_end_is_noop exampleHost ⟨[some 1, some 2], 2⟩ [Call.Do 11] (by decide)
     (by decide)⟩

/-- C13: whatever the state before (any list, any cursor, in range or not),
`Clear()` leaves an empty `operations` and `nextDoIndex == 0`, `State()` then
returns `(0, 0)`, and the call invokes no action. -/
theorem C13_clear_resets (h : Host) (us : UndoStack) (w : List Call) :
    us.Clear.operations = [] ∧ us.Clear.nextDoIndex = 0 ∧
    us.Clear.State.2 = (0, 0) ∧
    us.call h Cmd.Clear w = (⟨[], 0⟩, w, .ok Value.unit) := by
  have hc := Clear_eq us
  refine ⟨by rw [hc], by rw [hc], by rw [hc]; rfl, ?_⟩
  simp only [UndoStack.call, hc]

/-- C14: `State()` leaves the stack as it is and returns
`(nextDoIndex, len(operations) - nextDoIndex)`, the difference being the one
the 64-bit subtraction of the code computes, for every stack on which that
subtraction does not overflow; in every reachable state both counts are
non-negative and their sum is `len(operations)`, and there (the length
fitting an `int`) the subtraction does not overflow. -/
theorem C14_state_counts (h : Host) :
    (∀ (us : UndoStack) (w : List Call),
      us.State.1 = us ∧ (us.call h Cmd.State w).1 = us ∧ (us.call h Cmd.State w).2.1 = w) ∧
    (∀ (us : UndoStack) (w : List Call),
      (-9223372036854775808 : Int) ≤ (us.operations.length : Int) - us.nextDoIndex →
      (us.operations.length : Int) - us.nextDoIndex ≤ 9223372036854775807 →
      goIntSub (us.operations.length : Int) us.nextDoIndex
        = (us.operations.length : Int) - us.nextDoIndex ∧
      us.State.2 = (us.nextDoIndex, goIntSub (us.operations.length : Int) us.nextDoIndex) ∧
      us.State.2 = (us.nextDoIndex, (us.operations.length : Int) - us.nextDoIndex) ∧
      (us.call h Cmd.State w).2.2 = .ok (Value.counts us.nextDoIndex
        ((us.operations.length : Int) - us.nextDoIndex))) ∧
    (∀ us : UndoStack, Reachable h us →
      0 ≤ us.State.2.1 ∧ 0 ≤ us.State.2.2 ∧
      us.State.2.1 + us.State.2.2 = (us.operations.length : Int)) ∧
    (∀ us : UndoStack, Reachable h us →
      (us.operations.length : Int) ≤ 9223372036854775807 →
      us.State.2 = (us.nextDoIndex, goIntSub (us.operations.length : Int) us.nextDoIndex)) := by
  refine ⟨fun us w => ⟨rfl, rfl, rfl⟩, ?_, ?_, ?_⟩
  · intro us w hlo hhi
    have hsub : goIntSub (us.operations.length : Int) us.nextDoIndex
        = (us.operations.length : Int) - us.nextDoIndex := goIntSub_eq _ _ hlo hhi
    refine ⟨hsub, ?_, rfl, rfl⟩
    rw [hsub]
    rfl
  · intro us hreach
    have hr := reachable_inRange h us hreach
    unfold UndoStack.inRange at hr
    simp only [UndoStack.State]
    omega
  · intro us hreach hlen
    have hr := reachable_inRange h us hreach
    unfold UndoStack.inRange at hr
    rw [goIntSub_eq _ _ (by omega) (by omega)]
    rfl

/-- C14 on the stack reached by `Do(op)`, `Undo()`. -/
theorem C14_state_counts_witness :
    Reachable exampleHost ⟨[some 1], 0⟩ ∧
    (0 : Int) ≤ (⟨[some 1], 0⟩ : UndoStack).State.2.1 ∧
    (0 : Int) ≤ (⟨[some 1], 0⟩ : UndoStack).State.2.2 ∧
    (⟨[some 1], 0⟩ : UndoStack).State.2.1 + (⟨[some 1], 0⟩ : UndoStack).State.2.2 = 1 ∧
    (⟨[some 1], 0⟩ : UndoStack).State.2 = (0, goIntSub 1 0) ∧
    (⟨[some 1], 0⟩ : UndoStack).State.2 = (0, 1) :=
  ⟨Reachable.call Cmd.Undo _ [] (Reachable.call (Cmd.Do (some 1)) _ [] Reachable.zero),
   ((C14_state_counts exampleHost).2.2.1 _
     (Reachable.call Cmd.Undo _ [] (Reachable.call (Cmd.Do (some 1)) _ [] Reachable.zero))).1,
   ((C14_state_counts exampleHost).2.2.1 _
     (Reachable.call Cmd.Undo _ [] (Reachable.call (Cmd.Do (some 1)) _ [] Reachable.zero))).2.1,
   ((C14_state_counts exampleHost).2.2.1 _
     (Reachable.call Cmd.Undo _ [] (Reachable.call (Cmd.Do (some 1)) _ [] Reachable.zero))).2.2,
   ((C14_state_counts exampleHost).2.1 ⟨[some 1], 0⟩ [] (by decide) (by decide)).2.1,
   ((C14_state_counts exampleHost).2.1 ⟨[some 1], 0⟩ [] (by decide) (by decide)).2.2.1⟩

/-- C15: from the zero-value stack, `Do(op)` invokes the `Do` of the actions of
`op` in order and `State()` is `(1, 0)`; `Undo()` then invokes their `Undo`
in reverse order and `State()` is `(0, 1)`; `Redo()` then invokes their `Do`
in order again and `State()` is `(1, 0)`. -/
theorem C15_do_undo_redo_scenario (h : Host) (p : Nat) (w : List Call) :
    UndoStack.zero.Do h (some p) w =
      ⟨⟨[some p], 1⟩, w ++ (h.deref p).Actions.map Call.Do,
        (Operation.do_ h (some p) w).out⟩ ∧
    (⟨[some p], 1⟩ : UndoStack).State.2 = (1, 0) ∧
    (⟨[some p], 1⟩ : UndoStack).Undo h (w ++ (h.deref p).Actions.map Call.Do) =
      ⟨⟨[some p], 0⟩,
        w ++ (h.deref p).Actions.map Call.Do ++ (h.deref p).Actions.reverse.map Call.Undo,
        (Operation.undo h (some p) (w ++ (h.deref p).Actions.map Call.Do)).out⟩ ∧
    (⟨[some p], 0⟩ : UndoStack).State.2 = (0, 1) ∧
    (⟨[some p], 0⟩ : UndoStack).Redo h
        (w ++ (h.deref p).Actions.map Call.Do ++ (h.deref p).Actions.reverse.map Call.Undo) =
      ⟨⟨[some p], 1⟩,
        w ++ (h.deref p).Actions.map Call.Do ++ (h.deref p).Actions.reverse.map Call.Undo
          ++ (h.deref p).Actions.map Call.Do,
        (Operation.do_ h (some p)
          (w ++ (h.deref p).Actions.map Call.Do
            ++ (h.deref p).Actions.reverse.map Call.Undo)).out⟩ ∧
    (∃ e1 e2 e3, (Operation.do_ h (some p) w).out = .ok e1 ∧
      (Operation.undo h (some p) (w ++ (h.deref p).Actions.map Call.Do)).out = .ok e2 ∧
      (Operation.do_ h (some p)
          (w ++ (h.deref p).Actions.map Call.Do
            ++ (h.deref p).Actions.reverse.map Call.Undo)).out = .ok e3) := by
  refine ⟨?_, rfl, ?_, rfl, ?_, ?_⟩
  · rw [Do_some_of_inRange h UndoStack.zero p w (by decide), do_some]
    rfl
  · have hr : (⟨[some p], 1⟩ : UndoStack).inRange := by
      unfold UndoStack.inRange; simp
    rw [Undo_of_pos h ⟨[some p], 1⟩ _ p hr (by simp) rfl, undo_some]
    rfl
  · have hr : (⟨[some p], 0⟩ : UndoStack).inRange := by
      unfold UndoStack.inRange; simp
    rw [Redo_of_lt h ⟨[some p], 0⟩ _ p hr rfl, do_some]
    rfl
  · simp only [do_some, undo_some]
    exact ⟨_, _, _, rfl, rfl, rfl⟩

theorem run_cons_ok (h : Host) (c : Cmd) (cs : List Cmd) (us us1 : UndoStack)
    (w w1 : List Call) (v : Value) (hc : us.call h c w = (us1, w1, .ok v)) :
    us.run h (c :: cs) w =
      ((us1.run h cs w1).1, (us1.run h cs w1).2.1, .ok v :: (us1.run h cs w1).2.2) := by
  simp only [UndoStack.run, hc]

theorem run_Do_at_end (h : Host) (ops : List (Option Nat)) (us : UndoStack) (w : List Call)
    (hend : us.nextDoIndex = (us.operations.length : Int)) :
    (us.run h (ops.map Cmd.Do) w).1 =
      ⟨us.operations ++ ops.filter Option.isSome,
        (us.operations.length : Int) + ((ops.filter Option.isSome).length : Int)⟩ ∧
    (us.run h (ops.map Cmd.Do) w).2.2.length = ops.length ∧
    (∀ o ∈ (us.run h (ops.map Cmd.Do) w).2.2, ∃ e, o = .ok (Value.err e)) := by
  induction ops generalizing us w with
  | nil =>
    obtain ⟨xs, i⟩ := us
    simp only [] at hend
    simp [UndoStack.run, hend]
  | cons op ops ih =>
    have hr : us.inRange := by
      unfold UndoStack.inRange
      omega
    cases op with
    | none =>
      have hc : us.call h (Cmd.Do none) w = (us, w, .ok (Value.err none)) := by
        simp only [UndoStack.call, Do_none, Redo_of_ge h us w hr (by omega)]
        rfl
      rw [List.map_cons, run_cons_ok h _ _ us us w w _ hc]
      obtain ⟨h1, h2, h3⟩ := ih us w hend
      refine ⟨?_, ?_, ?_⟩
      · simp only [h1]
        simp
      · simp only [List.length_cons, h2]
      · intro o ho
        rcases List.mem_cons.mp ho with ho | ho
        · exact ⟨_, ho⟩
        · exact h3 o ho
    | some p =>
      have htake : us.operations.take us.nextDoIndex.toNat = us.operations := by
        apply List.take_of_length_le
        omega
      have hc : us.call h (Cmd.Do (some p)) w =
          (⟨us.operations ++ [some p], us.nextDoIndex + 1⟩,
            w ++ (h.deref p).Actions.map Call.Do,
            .ok (Value.err (MultiError.ErrorOrNil (some
              ⟨(h.returns w ((h.deref p).Actions.map Call.Do)).filterMap id⟩)))) := by
        simp only [UndoStack.call, Do_some_of_inRange h us p w hr, htake, do_some]
        rfl
      rw [List.map_cons, run_cons_ok h _ _ us _ w _ _ hc]
      have hend2 : (⟨us.operations ++ [some p], us.nextDoIndex + 1⟩ : UndoStack).nextDoIndex
          = ((⟨us.operations ++ [some p], us.nextDoIndex + 1⟩ :
              UndoStack).operations.length : Int) := by
        simp only [List.length_append, List.length_singleton]
        omega
      obtain ⟨h1, h2, h3⟩ := ih ⟨us.operations ++ [some p], us.nextDoIndex + 1⟩
        (w ++ (h.deref p).Actions.map Call.Do) hend2
      refine ⟨?_, ?_, ?_⟩
      · simp only [h1]
        simp
        omega
      · simp only [List.length_cons, h2]
      · intro o ho
        rcases List.mem_cons.mp ho with ho | ho
        · exact ⟨_, ho⟩
        · exact h3 o ho

/-- C12: from the zero-value stack, after any finite sequence of `Do` calls
(each with an operation or with nil) every call has returned and `State()`
reports `canBeUndone` equal to the number of calls given an operation and
`canBeRedone` equal to 0. -/
theorem C12_state_after_do_sequence (h : Host) (ops : List (Option Nat)) (w : List Call) :
    (UndoStack.zero.run h (ops.map Cmd.Do) w).1.State.2 =
      (((ops.filter Option.isSome).length : Int), 0) ∧
    (UndoStack.zero.run h (ops.map Cmd.Do) w).2.2.length = ops.length ∧
    (∀ o ∈ (UndoStack.zero.run h (ops.map Cmd.Do) w).2.2, ∃ e, o = .ok (Value.err e)) := by
  obtain ⟨h1, h2, h3⟩ := run_Do_at_end h ops UndoStack.zero w rfl
  refine ⟨?_, h2, h3⟩
  rw [h1]
  simp [UndoStack.State, UndoStack.zero]

/-- C12 on the sequence `Do(op1)`, `Do(nil)`, `Do(op2)`. -/
theorem C12_state_after_do_sequence_witness :
    (UndoStack.zero.run exampleHost [Cmd.Do (some 1), Cmd.Do none, Cmd.Do (some 2)] []).1.State.2
      = (2, 0) :=
  (C12_state_after_do_sequence exampleHost [some 1, none, some 2] []).1

theorem Redo_checkNextDoIndex (h : Host) (us : UndoStack) (w : List Call) :
    us.Redo h w = us.checkNextDoIndex.Redo h w := by
  unfold UndoStack.Redo
  rw [checkNextDoIndex_of_inRange _ (checkNextDoIndex_inRange us)]

theorem Undo_checkNextDoIndex (h : Host) (us : UndoStack) (w : List Call) :
    us.Undo h w = us.checkNextDoIndex.Undo h w := by
  unfold UndoStack.Undo
  rw [checkNextDoIndex_of_inRange _ (checkNextDoIndex_inRange us)]

theorem Redo_of_lt_nil (h : Host) (us : UndoStack) (w : List Call) (hr : us.inRange)
    (hget : us.operations.get? us.nextDoIndex.toNat = some none) :
    us.Redo h w = ⟨us, w, .error .nilDereference⟩ := by
  have hr2 := hr
  unfold UndoStack.inRange at hr2
  have hlt : us.nextDoIndex.toNat < us.operations.length := by
    rcases Nat.lt_or_ge us.nextDoIndex.toNat us.operations.length with hl | hl
    · exact hl
    · rw [List.get?_eq_none.mpr hl] at hget
      exact absurd hget (by simp)
  unfold UndoStack.Redo
  simp only [checkNextDoIndex_of_inRange us hr]
  rw [if_neg (by omega)]
  simp only [index_eq_ok _ _ _ hr2.1 hget]
  rfl

theorem Undo_of_pos_nil (h : Host) (us : UndoStack) (w : List Call) (hr : us.inRange)
    (hpos : 0 < us.nextDoIndex)
    (hget : us.operations.get? (us.nextDoIndex - 1).toNat = some none) :
    us.Undo h w = ⟨⟨us.operations, us.nextDoIndex - 1⟩, w, .error .nilDereference⟩ := by
  unfold UndoStack.Undo
  simp only [checkNextDoIndex_of_inRange us hr]
  rw [if_neg (by omega)]
  simp only [index_eq_ok _ _ _ (by omega : (0 : Int) ≤ us.nextDoIndex - 1) hget]
  rfl

theorem Redo_out_cases (h : Host) (us : UndoStack) (w : List Call) (hr : us.inRange) :
    (∃ e, (us.Redo h w).out = .ok e) ∨
    ((us.Redo h w).out = .error .nilDereference ∧
      us.operations.get? us.nextDoIndex.toNat = some none) := by
  have hr2 := hr
  unfold UndoStack.inRange at hr2
  by_cases hge : (us.operations.length : Int) ≤ us.nextDoIndex
  · rw [Redo_of_ge h us w hr hge]
    exact Or.inl ⟨_, rfl⟩
  · obtain ⟨x, hx, _⟩ := index_lt us.operations us.nextDoIndex hr2.1 (by omega)
    cases x with
    | none =>
      rw [Redo_of_lt_nil h us w hr hx]
      exact Or.inr ⟨rfl, hx⟩
    | some p =>
      rw [Redo_of_lt h us w p hr hx, do_some]
      exact Or.inl ⟨_, rfl⟩

theorem Undo_out_cases (h : Host) (us : UndoStack) (w : List Call) (hr : us.inRange) :
    (∃ e, (us.Undo h w).out = .ok e) ∨
    ((us.Undo h w).out = .error .nilDereference ∧
      us.operations.get? (us.nextDoIndex - 1).toNat = some none) := by
  have hr2 := hr
  unfold UndoStack.inRange at hr2
  by_cases hle : us.nextDoIndex ≤ 0
  · rw [Undo_of_le h us w hr hle]
    exact Or.inl ⟨_, rfl⟩
  · obtain ⟨x, hx, _⟩ := index_lt us.operations (us.nextDoIndex - 1) (by omega) (by omega)
    cases x with
    | none =>
      rw [Undo_of_pos_nil h us w hr (by omega) hx]
      exact Or.inr ⟨rfl, hx⟩
    | some p =>
      rw [Undo_of_pos h us w p hr (by omega) hx, undo_some]
      exact Or.inl ⟨_, rfl⟩

theorem Do_out_cases (h : Host) (us : UndoStack) (op : Option Nat) (w : List Call)
    (hr : us.inRange) :
    (∃ e, (us.Do h op w).out = .ok e) ∨
    ((us.Do h op w).out = .error .nilDereference ∧
      us.operations.get? us.nextDoIndex.toNat = some none) := by
  cases op with
  | none => rw [Do_none]; exact Redo_out_cases h us w hr
  | some p =>
    rw [Do_some_of_inRange h us p w hr, do_some]
    exact Or.inl ⟨_, rfl⟩

theorem Do_some_operations (h : Host) (us : UndoStack) (p : Nat) (w : List Call) :
    (us.Do h (some p) w).us.operations =
      us.operations.take us.checkNextDoIndex.nextDoIndex.toNat ++ [some p] := by
  rw [Do_checkNextDoIndex, Do_some_of_inRange h _ p w (checkNextDoIndex_inRange us),
    checkNextDoIndex_operations]

theorem reachable_nonnil (h : Host) (us : UndoStack) (hreach : Reachable h us) :
    ∀ e ∈ us.operations, e ≠ none := by
  induction hreach with
  | zero => intro e he; exact absurd he (List.not_mem_nil e)
  | call c us w _ ih =>
    cases c with
    | Do op =>
      show ∀ e ∈ (us.Do h op w).us.operations, e ≠ none
      cases op with
      | none => rw [Do_none, Redo_operations]; exact ih
      | some p =>
        rw [Do_some_operations]
        intro e he
        rcases List.mem_append.mp he with he | he
        · exact ih e (List.mem_of_mem_take he)
        · rw [List.mem_singleton.mp he]
          simp
    | Undo =>
      show ∀ e ∈ (us.Undo h w).us.operations, e ≠ none
      rw [Undo_operations]; exact ih
    | Redo =>
      show ∀ e ∈ (us.Redo h w).us.operations, e ≠ none
      rw [Redo_operations]; exact ih
    | Clear =>
      show ∀ e ∈ us.Clear.operations, e ≠ none
      rw [Clear_eq]
      intro e he; exact absurd he (List.not_mem_nil e)
    | State => exact ih

theorem call_ok (h : Host) (us : UndoStack) (c : Cmd) (w : List Call) (hr : us.inRange)
    (hnn : ∀ e ∈ us.operations, e ≠ none) :
    ∃ v, (us.call h c w).2.2 = .ok v := by
  have hno : ∀ i : Nat, us.operations.get? i ≠ some none := by
    intro i hi
    exact hnn none (List.get?_mem hi) rfl
  cases c with
  | Do op =>
    rcases Do_out_cases h us op w hr with ⟨e, he⟩ | ⟨_, hx⟩
    · exact ⟨Value.err e, by simp only [UndoStack.call, he]; rfl⟩
    · exact absurd hx (hno _)
  | Undo =>
    rcases Undo_out_cases h us w hr with ⟨e, he⟩ | ⟨_, hx⟩
    · exact ⟨Value.err e, by simp only [UndoStack.call, he]; rfl⟩
    · exact absurd hx (hno _)
  | Redo =>
    rcases Redo_out_cases h us w hr with ⟨e, he⟩ | ⟨_, hx⟩
    · exact ⟨Value.err e, by simp only [UndoStack.call, he]; rfl⟩
    · exact absurd hx (hno _)
  | Clear => exact ⟨_, rfl⟩
  | State => exact ⟨_, rfl⟩

/-- C20: whatever the state (cursor negative or beyond the end included), the
truncation `operations[:nextDoIndex]` in `Do` and the reads
`operations[nextDoIndex]` in `Do`, `Redo` and, after the decrement, `Undo`
are within bounds, so the only panic a call can end in is the nil
dereference; in every reachable state no stored entry is nil, and there no
call panics at all. -/
theorem C20_accesses_in_bounds (h : Host) :
    (∀ (us : UndoStack) (op : Option Nat),
      (us.checkNextDoIndex.nextDoIndex < (us.checkNextDoIndex.operations.length : Int) →
        ∃ ops, sliceTo us.checkNextDoIndex.operations us.checkNextDoIndex.nextDoIndex
          = .ok ops) ∧
      (∃ us1, us.checkNextDoIndex.appendOp op = .ok us1 ∧
        (¬ (us1.nextDoIndex ≥ (us1.operations.length : Int)) →
          ∃ o, index us1.operations us1.nextDoIndex = .ok o)) ∧
      (¬ (us.checkNextDoIndex.nextDoIndex ≥ (us.checkNextDoIndex.operations.length : Int)) →
        ∃ o, index us.checkNextDoIndex.operations us.checkNextDoIndex.nextDoIndex = .ok o) ∧
      (¬ (us.checkNextDoIndex.nextDoIndex ≤ 0) →
        ∃ o, index us.checkNextDoIndex.operations (us.checkNextDoIndex.nextDoIndex - 1)
          = .ok o)) ∧
    (∀ (us : UndoStack) (op : Option Nat) (w : List Call) (e : Panic),
      ((us.Do h op w).out = .error e ∨ (us.Redo h w).out = .error e ∨
        (us.Undo h w).out = .error e) → e = Panic.nilDereference) ∧
    (∀ us : UndoStack, Reachable h us →
      (∀ e ∈ us.operations, e ≠ none) ∧
      (∀ (c : Cmd) (w : List Call), ∃ v, (us.call h c w).2.2 = .ok v)) := by
  refine ⟨?_, ?_, ?_⟩
  · intro us op
    have hc := checkNextDoIndex_inRange us
    have hc2 := hc
    unfold UndoStack.inRange at hc2
    refine ⟨?_, ?_, ?_, ?_⟩
    · intro _
      unfold sliceTo
      rw [if_neg (by omega)]
      exact ⟨_, rfl⟩
    · cases op with
      | none =>
        refine ⟨_, rfl, ?_⟩
        intro hlt
        obtain ⟨x, _, hx⟩ := index_lt us.checkNextDoIndex.operations
          us.checkNextDoIndex.nextDoIndex hc2.1 (by omega)
        exact ⟨x, hx⟩
      | some p =>
        rw [appendOp_some _ p hc]
        refine ⟨_, rfl, ?_⟩
        intro _
        have hlen : (us.checkNextDoIndex.operations.take
            us.checkNextDoIndex.nextDoIndex.toNat).length
            = us.checkNextDoIndex.nextDoIndex.toNat := by
          simp only [List.length_take]; omega
        refine ⟨some p, index_eq_ok _ _ _ hc2.1 ?_⟩
        simp [List.getElem?_append_right, hlen]
    · intro hlt
      obtain ⟨x, _, hx⟩ := index_lt us.checkNextDoIndex.operations
        us.checkNextDoIndex.nextDoIndex hc2.1 (by omega)
      exact ⟨x, hx⟩
    · intro hpos
      obtain ⟨x, _, hx⟩ := index_lt us.checkNextDoIndex.operations
        (us.checkNextDoIndex.nextDoIndex - 1) (by omega) (by omega)
      exact ⟨x, hx⟩
  · intro us op w e hcase
    have hc := checkNextDoIndex_inRange us
    rcases hcase with hd | hd | hd
    · rw [Do_checkNextDoIndex] at hd
      rcases Do_out_cases h _ op w hc with ⟨e2, he2⟩ | ⟨he2, _⟩
      · rw [he2] at hd; exact absurd hd (by simp)
      · rw [he2] at hd; exact (Except.error.inj hd).symm
    · rw [Redo_checkNextDoIndex] at hd
      rcases Redo_out_cases h _ w hc with ⟨e2, he2⟩ | ⟨he2, _⟩
      · rw [he2] at hd; exact absurd hd (by simp)
      · rw [he2] at hd; exact (Except.error.inj hd).symm
    · rw [Undo_checkNextDoIndex] at hd
      rcases Undo_out_cases h _ w hc with ⟨e2, he2⟩ | ⟨he2, _⟩
      · rw [he2] at hd; exact absurd hd (by simp)
      · rw [he2] at hd; exact (Except.error.inj hd).symm
  · intro us hreach
    exact ⟨reachable_nonnil h us hreach,
      fun c w => call_ok h us c w (reachable_inRange h us hreach) (reachable_nonnil h us hreach)⟩

/-- C20 at a stack whose cursor is beyond the end and at the stack reached by
`Do(op)`, `Undo()`. -/
theorem C20_accesses_in_bounds_witness :
    (∃ o, index (⟨[some 1, some 2], 7⟩ : UndoStack).checkNextDoIndex.operations
      ((⟨[some 1, some 2], 7⟩ : UndoStack).checkNextDoIndex.nextDoIndex - 1) = .ok o) ∧
    Reachable exampleHost ⟨[some 1], 0⟩ ∧
    (∃ v, ((⟨[some 1], 0⟩ : UndoStack).call exampleHost Cmd.Redo []).2.2 = .ok v) :=
  ⟨((C20_accesses_in_bounds exampleHost).1 ⟨[some 1, some 2], 7⟩ none).2.2.2 (by decide),
   Reachable.call Cmd.Undo _ [] (Reachable.call (Cmd.Do (some 1)) _ [] Reachable.zero),
   ((C20_accesses_in_bounds exampleHost).2.2 _
     (Reachable.call Cmd.Undo _ [] (Reachable.call (Cmd.Do (some 1)) _ [] Reachable.zero))).2
     Cmd.Redo []⟩

theorem reachableDistinct_inv (h : Host) (us : UndoStack) (hreach : ReachableDistinct h us) :
    us.inRange ∧ us.operations.Nodup := by
  induction hreach with
  | zero => exact ⟨by decide, List.nodup_nil⟩
  | call c us w _ hfresh ih =>
    obtain ⟨hr, hnd⟩ := ih
    cases c with
    | Do op =>
      refine ⟨Do_inRange h us op w, ?_⟩
      show (us.Do h op w).us.operations.Nodup
      cases op with
      | none => rw [Do_none, Redo_operations]; exact hnd
      | some p =>
        rw [Do_some_operations, checkNextDoIndex_of_inRange us hr]
        have hnot := hfresh p rfl
        have htake : (us.operations.take us.nextDoIndex.toNat).Nodup :=
          hnd.sublist (List.take_sublist _ _)
        rw [List.nodup_append]
        refine ⟨htake, List.nodup_singleton _, ?_⟩
        intro a ha hb
        rw [List.mem_singleton.mp hb] at ha
        exact hnot ha
    | Undo =>
      refine ⟨Undo_inRange h us w, ?_⟩
      show (us.Undo h w).us.operations.Nodup
      rw [Undo_operations]; exact hnd
    | Redo =>
      refine ⟨Redo_inRange h us w, ?_⟩
      show (us.Redo h w).us.operations.Nodup
      rw [Redo_operations]; exact hnd
    | Clear =>
      show us.Clear.inRange ∧ us.Clear.operations.Nodup
      rw [Clear_eq]
      exact ⟨by decide, List.nodup_nil⟩
    | State => exact ⟨hr, hnd⟩

/-- C18, as stated, fails: `Do(op)` twice with the same operation leaves that
operation in slot 0 and in slot 1. -/
theorem C18_aliasing_counterexample :
    (UndoStack.zero.run exampleHost [Cmd.Do (some 1), Cmd.Do (some 1)] []).1
      = ⟨[some 1, some 1], 2⟩ ∧
    Reachable exampleHost ⟨[some 1, some 1], 2⟩ ∧
    (⟨[some 1, some 1], 2⟩ : UndoStack).operations.get? 0 = some (some 1) ∧
    (⟨[some 1, some 1], 2⟩ : UndoStack).operations.get? 1 = some (some 1) ∧
    ¬ (⟨[some 1, some 1], 2⟩ : UndoStack).operations.Nodup :=
  ⟨by decide,
   Reachable.call (Cmd.Do (some 1)) _ [Call.Do 11, Call.Do 12]
     (Reachable.call (Cmd.Do (some 1)) _ [] Reachable.zero),
   by decide, by decide, by decide⟩

/-- C18, amended: in every state reached from the zero-value stack by `Do`,
`Undo`, `Redo` and `Clear` calls in which no `Do` is given an operation held
below the cursor at that moment, no operation occurs at two different
indices of `operations`. -/
theorem C18_distinct_ops_never_aliased (h : Host) (us : UndoStack)
    (hreach : ReachableDistinct h us) :
    us.operations.Nodup ∧
    (∀ (i j : Nat) (p : Nat), us.operations.get? i = some (some p) →
      us.operations.get? j = some (some p) → i = j) := by
  have hnd := (reachableDistinct_inv h us hreach).2
  refine ⟨hnd, ?_⟩
  intro i j p hi hj
  have hil : i < us.operations.length := by
    rcases Nat.lt_or_ge i us.operations.length with hl | hl
    · exact hl
    · rw [List.get?_eq_none.mpr hl] at hi
      exact absurd hi (by simp)
  have hjl : j < us.operations.length := by
    rcases Nat.lt_or_ge j us.operations.length with hl | hl
    · exact hl
    · rw [List.get?_eq_none.mpr hl] at hj
      exact absurd hj (by simp)
  rw [List.get?_eq_get hil] at hi
  rw [List.get?_eq_get hjl] at hj
  have heq : us.operations.get ⟨i, hil⟩ = us.operations.get ⟨j, hjl⟩ := by
    rw [Option.some.inj hi, Option.some.inj hj]
  have := (List.nodup_iff_injective_get.mp hnd) heq
  exact Fin.mk.inj this

/-- C18 amended, on the stack reached by `Do(op1)`, `Do(op2)`. -/
theorem C18_distinct_ops_never_aliased_witness :
    ReachableDistinct exampleHost ⟨[some 1, some 2], 2⟩ ∧
    (⟨[some 1, some 2], 2⟩ : UndoStack).operations.Nodup :=
  ⟨ReachableDistinct.call (Cmd.Do (some 2)) ⟨[some 1], 1⟩ [Call.Do 11, Call.Do 12]
      (ReachableDistinct.call (Cmd.Do (some 1)) UndoStack.zero [] ReachableDistinct.zero
        (fun p _ hm => by simp [UndoStack.zero] at hm))
      (fun p hp hm => by
        have h2 : 2 = p := by simpa using hp
        subst h2
        revert hm
        decide),
   (C18_distinct_ops_never_aliased exampleHost ⟨[some 1, some 2], 2⟩
     (ReachableDistinct.call (Cmd.Do (some 2)) ⟨[some 1], 1⟩ [Call.Do 11, Call.Do 12]
      (ReachableDistinct.call (Cmd.Do (some 1)) UndoStack.zero [] ReachableDistinct.zero
        (fun p _ hm => by simp [UndoStack.zero] at hm))
      (fun p hp hm => by
        have h2 : 2 = p := by simpa using hp
        subst h2
        revert hm
        decide))).1⟩

theorem returns_congr (h1 h2 : Host) (hret : h1.ret = h2.ret) (cs : List Call) (w : List Call) :
    h1.returns w cs = h2.returns w cs := by
  induction cs generalizing w with
  | nil => rfl
  | cons c cs ih => simp only [Host.returns, hret, ih]

theorem do_congr (h1 h2 : Host) (hret : h1.ret = h2.ret) (p : Nat) (w : List Call)
    (hp : h1.deref p = h2.deref p) :
    Operation.do_ h1 (some p) w = Operation.do_ h2 (some p) w := by
  rw [do_some, do_some, hp, returns_congr h1 h2 hret]

theorem undo_congr (h1 h2 : Host) (hret : h1.ret = h2.ret) (p : Nat) (w : List Call)
    (hp : h1.deref p = h2.deref p) :
    Operation.undo h1 (some p) w = Operation.undo h2 (some p) w := by
  rw [undo_some, undo_some, hp, returns_congr h1 h2 hret]

theorem Redo_congr (h1 h2 : Host) (hret : h1.ret = h2.ret) (us : UndoStack) (w : List Call)
    (hd : ∀ p : Nat, some p ∈ us.operations → h1.deref p = h2.deref p) :
    us.Redo h1 w = us.Redo h2 w := by
  have hc := checkNextDoIndex_inRange us
  have hc2 := hc
  unfold UndoStack.inRange at hc2
  rw [Redo_checkNextDoIndex h1, Redo_checkNextDoIndex h2]
  by_cases hge : (us.checkNextDoIndex.operations.length : Int) ≤ us.checkNextDoIndex.nextDoIndex
  · rw [Redo_of_ge h1 _ w hc hge, Redo_of_ge h2 _ w hc hge]
  · obtain ⟨x, hx, _⟩ := index_lt us.checkNextDoIndex.operations
      us.checkNextDoIndex.nextDoIndex hc2.1 (by omega)
    cases x with
    | none => rw [Redo_of_lt_nil h1 _ w hc hx, Redo_of_lt_nil h2 _ w hc hx]
    | some p =>
      have hmem : some p ∈ us.operations := by
        rw [← checkNextDoIndex_operations us]
        exact List.get?_mem hx
      rw [Redo_of_lt h1 _ w p hc hx, Redo_of_lt h2 _ w p hc hx,
        do_congr h1 h2 hret p w (hd p hmem)]

theorem Undo_congr (h1 h2 : Host) (hret : h1.ret = h2.ret) (us : UndoStack) (w : List Call)
    (hd : ∀ p : Nat, some p ∈ us.operations → h1.deref p = h2.deref p) :
    us.Undo h1 w = us.Undo h2 w := by
  have hc := checkNextDoIndex_inRange us
  have hc2 := hc
  unfold UndoStack.inRange at hc2
  rw [Undo_checkNextDoIndex h1, Undo_checkNextDoIndex h2]
  by_cases hle : us.checkNextDoIndex.nextDoIndex ≤ 0
  · rw [Undo_of_le h1 _ w hc hle, Undo_of_le h2 _ w hc hle]
  · obtain ⟨x, hx, _⟩ := index_lt us.checkNextDoIndex.operations
      (us.checkNextDoIndex.nextDoIndex - 1) (by omega) (by omega)
    cases x with
    | none =>
      rw [Undo_of_pos_nil h1 _ w hc (by omega) hx, Undo_of_pos_nil h2 _ w hc (by omega) hx]
    | some p =>
      have hmem : some p ∈ us.operations := by
        rw [← checkNextDoIndex_operations us]
        exact List.get?_mem hx
      rw [Undo_of_pos h1 _ w p hc (by omega) hx, Undo_of_pos h2 _ w p hc (by omega) hx,
        undo_congr h1 h2 hret p w (hd p hmem)]

theorem run_undo_redo (h1 h2 : Host) (hret : h1.ret = h2.ret) (cs : List Cmd)
    (hcs : ∀ c ∈ cs, c = Cmd.Undo ∨ c = Cmd.Redo) (us : UndoStack) (w : List Call)
    (hd : ∀ p : Nat, some p ∈ us.operations → h1.deref p = h2.deref p) :
    (us.run h1 cs w).1.operations = us.operations ∧ us.run h1 cs w = us.run h2 cs w := by
  induction cs generalizing us w with
  | nil => exact ⟨rfl, rfl⟩
  | cons c cs ih =>
    have hcs2 : ∀ c ∈ cs, c = Cmd.Undo ∨ c = Cmd.Redo :=
      fun c hc => hcs c (List.mem_cons_of_mem _ hc)
    have hcall : us.call h1 c w = us.call h2 c w ∧ (us.call h1 c w).1.operations = us.operations := by
      rcases hcs c (List.mem_cons_self _ _) with hc | hc
      · subst hc
        simp only [UndoStack.call, Undo_congr h1 h2 hret us w hd, Undo_operations, and_self]
      · subst hc
        simp only [UndoStack.call, Redo_congr h1 h2 hret us w hd, Redo_operations, and_self]
    obtain ⟨hc1, hc2⟩ := hcall
    have hd2 : ∀ p : Nat, some p ∈ (us.call h1 c w).1.operations → h1.deref p = h2.deref p := by
      rw [hc2]; exact hd
    obtain ⟨ih1, ih2⟩ := ih hcs2 (us.call h1 c w).1 (us.call h1 c w).2.1 hd2
    simp only [UndoStack.run]
    rw [← hc1]
    rcases hres : us.call h1 c w with ⟨us1, w1, o⟩
    rw [hres] at ih1 ih2 hc2
    simp only [] at ih1 ih2 hc2
    cases o with
    | error e => exact ⟨hc2, rfl⟩
    | ok v =>
      simp only []
      rw [← ih2]
      exact ⟨ih1.trans hc2, rfl⟩

/-- C16: in an in-range state `Undo()` and `Redo()` leave `operations` as it
was and move the cursor by at most one; the only operation `Undo()` can run
is `operations[nextDoIndex-1]` and the only one `Redo()` can run is
`operations[nextDoIndex]`; `canBeUndone + canBeRedone` is preserved; and over
any sequence of `Undo()` and `Redo()` calls the list stays the same and an
operation that is not in the list is never run (its actions may be replaced
without any effect on the run). -/
theorem C16_undo_redo_keep_the_list (h : Host) (us : UndoStack) (w : List Call)
    (hr : us.inRange) :
    ((us.Undo h w).us.operations = us.operations ∧
      us.nextDoIndex - 1 ≤ (us.Undo h w).us.nextDoIndex ∧
      (us.Undo h w).us.nextDoIndex ≤ us.nextDoIndex) ∧
    ((us.Redo h w).us.operations = us.operations ∧
      us.nextDoIndex ≤ (us.Redo h w).us.nextDoIndex ∧
      (us.Redo h w).us.nextDoIndex ≤ us.nextDoIndex + 1) ∧
    ((us.Undo h w).world = w ∨
      ∃ p : Nat, us.operations.get? (us.nextDoIndex - 1).toNat = some (some p) ∧
        (us.Undo h w).world = (Operation.undo h (some p) w).world ∧
        (us.Undo h w).out = (Operation.undo h (some p) w).out) ∧
    ((us.Redo h w).world = w ∨
      ∃ p : Nat, us.operations.get? us.nextDoIndex.toNat = some (some p) ∧
        (us.Redo h w).world = (Operation.do_ h (some p) w).world ∧
        (us.Redo h w).out = (Operation.do_ h (some p) w).out) ∧
    ((us.Undo h w).us.State.2.1 + (us.Undo h w).us.State.2.2 = us.State.2.1 + us.State.2.2 ∧
      (us.Redo h w).us.State.2.1 + (us.Redo h w).us.State.2.2
        = us.State.2.1 + us.State.2.2) ∧
    (∀ cs : List Cmd, (∀ c ∈ cs, c = Cmd.Undo ∨ c = Cmd.Redo) →
      (us.run h cs w).1.operations = us.operations) ∧
    (∀ (cs : List Cmd) (q : Nat) (op2 : Operation),
      (∀ c ∈ cs, c = Cmd.Undo ∨ c = Cmd.Redo) → some q ∉ us.operations →
      us.run ⟨Function.update h.deref q op2, h.ret⟩ cs w = us.run h cs w) := by
  have hr2 := hr
  unfold UndoStack.inRange at hr2
  have hU : us.nextDoIndex - 1 ≤ (us.Undo h w).us.nextDoIndex ∧
      (us.Undo h w).us.nextDoIndex ≤ us.nextDoIndex ∧
      ((us.Undo h w).world = w ∨
        ∃ p : Nat, us.operations.get? (us.nextDoIndex - 1).toNat = some (some p) ∧
          (us.Undo h w).world = (Operation.undo h (some p) w).world ∧
          (us.Undo h w).out = (Operation.undo h (some p) w).out) := by
    by_cases hle : us.nextDoIndex ≤ 0
    · rw [Undo_of_le h us w hr hle]
      exact ⟨by simp, le_refl _, Or.inl rfl⟩
    · obtain ⟨x, hx, _⟩ := index_lt us.operations (us.nextDoIndex - 1) (by omega) (by omega)
      cases x with
      | none =>
        rw [Undo_of_pos_nil h us w hr (by omega) hx]
        exact ⟨le_refl _, by simp, Or.inl rfl⟩
      | some p =>
        rw [Undo_of_pos h us w p hr (by omega) hx]
        exact ⟨le_refl _, by simp, Or.inr ⟨p, hx, rfl, rfl⟩⟩
  have hR : us.nextDoIndex ≤ (us.Redo h w).us.nextDoIndex ∧
      (us.Redo h w).us.nextDoIndex ≤ us.nextDoIndex + 1 ∧
      ((us.Redo h w).world = w ∨
        ∃ p : Nat, us.operations.get? us.nextDoIndex.toNat = some (some p) ∧
          (us.Redo h w).world = (Operation.do_ h (some p) w).world ∧
          (us.Redo h w).out = (Operation.do_ h (some p) w).out) := by
    by_cases hge : (us.operations.length : Int) ≤ us.nextDoIndex
    · rw [Redo_of_ge h us w hr hge]
      exact ⟨le_refl _, by simp, Or.inl rfl⟩
    · obtain ⟨x, hx, _⟩ := index_lt us.operations us.nextDoIndex hr2.1 (by omega)
      cases x with
      | none =>
        rw [Redo_of_lt_nil h us w hr hx]
        exact ⟨le_refl _, by simp, Or.inl rfl⟩
      | some p =>
        rw [Redo_of_lt h us w p hr hx]
        exact ⟨by simp, le_refl _, Or.inr ⟨p, hx, rfl, rfl⟩⟩
  refine ⟨⟨Undo_operations h us w, hU.1, hU.2.1⟩, ⟨Redo_operations h us w, hR.1, hR.2.1⟩,
    hU.2.2, hR.2.2, ?_, ?_, ?_⟩
  · simp only [UndoStack.State, Undo_operations, Redo_operations]
    constructor <;> ring
  · intro cs hcs
    exact (run_undo_redo h h rfl cs hcs us w (fun _ _ => rfl)).1
  · intro cs q op2 hcs hq
    refine (run_undo_redo ⟨Function.update h.deref q op2, h.ret⟩ h rfl cs hcs us w ?_).2
    intro p hp
    have hne : p ≠ q := by
      intro hpq
      rw [hpq] at hp
      exact hq hp
    exact Function.update_noteq hne op2 h.deref

/-- C16 on a stack with one operation done and one undone: `Redo()` keeps the
list, and an operation discarded earlier plays no part in `Undo()`, `Redo()`. -/
theorem C16_undo_redo_keep_the_list_witness :
    (⟨[some 1, some 2], 1⟩ : UndoStack).inRange ∧
    ((⟨[some 1, some 2], 1⟩ : UndoStack).Redo exampleHost []).us.operations
      = [some 1, some 2] ∧
    (⟨[some 1, some 2], 1⟩ : UndoStack).run
        ⟨Function.update exampleHost.deref 3 ⟨"gone", [99]⟩, exampleHost.ret⟩
        [Cmd.Undo, Cmd.Redo] [] =
      (⟨[some 1, some 2], 1⟩ : UndoStack).run exampleHost [Cmd.Undo, Cmd.Redo] [] :=
  ⟨by decide,
   (C16_undo_redo_keep_the_list exampleHost ⟨[some 1, some 2], 1⟩ [] (by decide)).2.1.1,
   (C16_undo_redo_keep_the_list exampleHost ⟨[some 1, some 2], 1⟩ [] (by decide)).2.2.2.2.2.2
     [Cmd.Undo, Cmd.Redo] 3 ⟨"gone", [99]⟩
     (by decide) (by decide)⟩

theorem get?_map_some (ps : List Nat) (i : Nat) (hi : i < ps.length) :
    (ps.map some).get? i = some (some (ps.get ⟨i, hi⟩)) := by
  simp [List.getElem?_eq_getElem hi]

theorem run_Do_list (h : Host) (ps : List Nat) (us : UndoStack) (w : List Call)
    (hend : us.nextDoIndex = (us.operations.length : Int)) :
    (us.run h (ps.map (fun p => Cmd.Do (some p))) w).1 =
      ⟨us.operations ++ ps.map some, (us.operations.length : Int) + (ps.length : Int)⟩ ∧
    (us.run h (ps.map (fun p => Cmd.Do (some p))) w).2.1 = w ++ (ps.map h.doCalls).flatten ∧
    (us.run h (ps.map (fun p => Cmd.Do (some p))) w).2.2.length = ps.length ∧
    (∀ o ∈ (us.run h (ps.map (fun p => Cmd.Do (some p))) w).2.2, ∃ e, o = .ok (Value.err e)) := by
  induction ps generalizing us w with
  | nil =>
    obtain ⟨xs, i⟩ := us
    simp only [] at hend
    simp [UndoStack.run, hend]
  | cons p ps ih =>
    have hr : us.inRange := by
      unfold UndoStack.inRange
      omega
    have htake : us.operations.take us.nextDoIndex.toNat = us.operations := by
      apply List.take_of_length_le
      omega
    have hc : us.call h (Cmd.Do (some p)) w =
        (⟨us.operations ++ [some p], us.nextDoIndex + 1⟩, w ++ h.doCalls p,
          .ok (Value.err (MultiError.ErrorOrNil (some
            ⟨(h.returns w ((h.deref p).Actions.map Call.Do)).filterMap id⟩)))) := by
      simp only [UndoStack.call, Do_some_of_inRange h us p w hr, htake, do_some]
      rfl
    have hend2 : (⟨us.operations ++ [some p], us.nextDoIndex + 1⟩ : UndoStack).nextDoIndex
        = ((⟨us.operations ++ [some p], us.nextDoIndex + 1⟩ :
            UndoStack).operations.length : Int) := by
      simp only [List.length_append, List.length_singleton]
      omega
    rw [List.map_cons, run_cons_ok h _ _ us _ w _ _ hc]
    obtain ⟨h1, h2, h3, h4⟩ := ih ⟨us.operations ++ [some p], us.nextDoIndex + 1⟩
      (w ++ h.doCalls p) hend2
    refine ⟨?_, ?_, ?_, ?_⟩
    · simp only [h1]
      simp
      omega
    · simp only [h2]
      simp
    · simp only [List.length_cons, h3]
    · intro o ho
      rcases List.mem_cons.mp ho with ho | ho
      · exact ⟨_, ho⟩
      · exact h4 o ho

theorem run_Undo_replicate (h : Host) (ps : List Nat) (k : Nat) (i : Nat) (w : List Call)
    (hki : k ≤ i) (hi : i ≤ ps.length) :
    ((⟨ps.map some, (i : Int)⟩ : UndoStack).run h (List.replicate k Cmd.Undo) w).1 =
      ⟨ps.map some, (i : Int) - (k : Int)⟩ ∧
    ((⟨ps.map some, (i : Int)⟩ : UndoStack).run h (List.replicate k Cmd.Undo) w).2.1 =
      w ++ ((((ps.take i).reverse.take k)).map h.undoCalls).flatten ∧
    ((⟨ps.map some, (i : Int)⟩ : UndoStack).run h (List.replicate k Cmd.Undo) w).2.2.length = k ∧
    (∀ o ∈ ((⟨ps.map some, (i : Int)⟩ : UndoStack).run h (List.replicate k Cmd.Undo) w).2.2,
      ∃ e, o = .ok (Value.err e)) := by
  induction k generalizing i w with
  | zero => simp [UndoStack.run]
  | succ k ih =>
    obtain ⟨j, rfl⟩ : ∃ j, i = j + 1 := ⟨i - 1, by omega⟩
    have hj : j < ps.length := by omega
    have hr : (⟨ps.map some, ((j + 1 : Nat) : Int)⟩ : UndoStack).inRange := by
      unfold UndoStack.inRange
      simp only [List.length_map]
      omega
    have hidx : (((j + 1 : Nat) : Int) - 1).toNat = j := by omega
    have hget : (⟨ps.map some, ((j + 1 : Nat) : Int)⟩ : UndoStack).operations.get?
        ((⟨ps.map some, ((j + 1 : Nat) : Int)⟩ : UndoStack).nextDoIndex - 1).toNat
        = some (some (ps.get ⟨j, hj⟩)) := by
      simp only [hidx]
      exact get?_map_some ps j hj
    have hc : (⟨ps.map some, ((j + 1 : Nat) : Int)⟩ : UndoStack).call h Cmd.Undo w =
        (⟨ps.map some, (j : Int)⟩, w ++ h.undoCalls (ps.get ⟨j, hj⟩),
          .ok (Value.err (MultiError.ErrorOrNil (some
            ⟨(h.returns w ((h.deref (ps.get ⟨j, hj⟩)).Actions.reverse.map
              Call.Undo)).filterMap id⟩)))) := by
      have hpos : 0 < (⟨ps.map some, ((j + 1 : Nat) : Int)⟩ : UndoStack).nextDoIndex := by
        show (0 : Int) < ((j + 1 : Nat) : Int)
        omega
      simp only [UndoStack.call, Undo_of_pos h _ w _ hr hpos hget, undo_some]
      simp [Host.undoCalls, Except.map]
    have htake : ((ps.take (j + 1)).reverse.take (k + 1)) =
        ps.get ⟨j, hj⟩ :: (ps.take j).reverse.take k := by
      have ht : ps.take (j + 1) = ps.take j ++ [ps.get ⟨j, hj⟩] := by
        rw [List.take_succ, List.getElem?_eq_getElem hj]
        simp
      rw [ht, List.reverse_append, List.reverse_singleton, List.singleton_append,
        List.take_succ_cons]
    rw [List.replicate_succ, run_cons_ok h _ _ _ _ w _ _ hc, htake]
    obtain ⟨h1, h2, h3, h4⟩ := ih j (w ++ h.undoCalls (ps.get ⟨j, hj⟩)) (by omega) (by omega)
    refine ⟨?_, ?_, ?_, ?_⟩
    · simp only [h1]
      simp
    · simp only [h2]
      simp
    · simp only [List.length_cons, h3]
    · intro o ho
      rcases List.mem_cons.mp ho with ho | ho
      · exact ⟨_, ho⟩
      · exact h4 o ho

theorem run_Redo_replicate (h : Host) (ps : List Nat) (k : Nat) (i : Nat) (w : List Call)
    (hik : i + k ≤ ps.length) :
    ((⟨ps.map some, (i : Int)⟩ : UndoStack).run h (List.replicate k Cmd.Redo) w).1 =
      ⟨ps.map some, (i : Int) + (k : Int)⟩ ∧
    ((⟨ps.map some, (i : Int)⟩ : UndoStack).run h (List.replicate k Cmd.Redo) w).2.1 =
      w ++ (((ps.drop i).take k).map h.doCalls).flatten ∧
    ((⟨ps.map some, (i : Int)⟩ : UndoStack).run h (List.replicate k Cmd.Redo) w).2.2.length = k ∧
    (∀ o ∈ ((⟨ps.map some, (i : Int)⟩ : UndoStack).run h (List.replicate k Cmd.Redo) w).2.2,
      ∃ e, o = .ok (Value.err e)) := by
  induction k generalizing i w with
  | zero => simp [UndoStack.run]
  | succ k ih =>
    have hj : i < ps.length := by omega
    have hr : (⟨ps.map some, (i : Int)⟩ : UndoStack).inRange := by
      unfold UndoStack.inRange
      simp only [List.length_map]
      omega
    have hget : (⟨ps.map some, (i : Int)⟩ : UndoStack).operations.get?
        (⟨ps.map some, (i : Int)⟩ : UndoStack).nextDoIndex.toNat
        = some (some (ps.get ⟨i, hj⟩)) := by
      simp only [Int.toNat_ofNat]
      exact get?_map_some ps i hj
    have hc : (⟨ps.map some, (i : Int)⟩ : UndoStack).call h Cmd.Redo w =
        (⟨ps.map some, ((i + 1 : Nat) : Int)⟩, w ++ h.doCalls (ps.get ⟨i, hj⟩),
          .ok (Value.err (MultiError.ErrorOrNil (some
            ⟨(h.returns w ((h.deref (ps.get ⟨i, hj⟩)).Actions.map
              Call.Do)).filterMap id⟩)))) := by
      simp only [UndoStack.call, Redo_of_lt h _ w _ hr hget, do_some]
      simp [Host.doCalls, Except.map]
    have hdrop : (ps.drop i).take (k + 1) = ps.get ⟨i, hj⟩ :: (ps.drop (i + 1)).take k := by
      rw [List.drop_eq_getElem_cons hj, List.take_succ_cons]
      rfl
    rw [List.replicate_succ, run_cons_ok h _ _ _ _ w _ _ hc, hdrop]
    obtain ⟨h1, h2, h3, h4⟩ := ih (i + 1) (w ++ h.doCalls (ps.get ⟨i, hj⟩)) (by omega)
    refine ⟨?_, ?_, ?_, ?_⟩
    · simp only [h1]
      simp
      omega
    · simp only [h2]
      simp
    · simp only [List.length_cons, h3]
    · intro o ho
      rcases List.mem_cons.mp ho with ho | ho
      · exact ⟨_, ho⟩
      · exact h4 o ho

/-- C19: for operations `op1..opn` and `k <= n`, from the zero-value stack the
calls `Do(op1)`, ..., `Do(opn)` leave the list `[op1..opn]` with the cursor
at `n`; `k` calls of `Undo()` then run the undo of `opn`, `opn-1`, ...,
`opn-k+1` in that order and give `State() = (n-k, k)`; `k` calls of `Redo()`
then run the do of `opn-k+1`, ..., `opn` in that order and give
`State() = (n, 0)` with the list still `[op1..opn]`. No call panics. -/
theorem C19_undo_redo_strictly_lifo (h : Host) (ps : List Nat) (k : Nat) (w : List Call)
    (hk : k ≤ ps.length) :
    (UndoStack.zero.run h (ps.map (fun p => Cmd.Do (some p))) w).1
      = ⟨ps.map some, (ps.length : Int)⟩ ∧
    (UndoStack.zero.run h (ps.map (fun p => Cmd.Do (some p))) w).2.1
      = w ++ (ps.map h.doCalls).flatten ∧
    (∀ w1 : List Call,
      ((⟨ps.map some, (ps.length : Int)⟩ : UndoStack).run h (List.replicate k Cmd.Undo) w1).1
        = ⟨ps.map some, (ps.length : Int) - (k : Int)⟩ ∧
      ((⟨ps.map some, (ps.length : Int)⟩ : UndoStack).run h (List.replicate k Cmd.Undo) w1).2.1
        = w1 ++ ((ps.reverse.take k).map h.undoCalls).flatten ∧
      ((⟨ps.map some, (ps.length : Int)⟩ : UndoStack).run h
        (List.replicate k Cmd.Undo) w1).2.2.length = k ∧
      (∀ o ∈ ((⟨ps.map some, (ps.length : Int)⟩ : UndoStack).run h
        (List.replicate k Cmd.Undo) w1).2.2, ∃ e, o = .ok (Value.err e))) ∧
    (⟨ps.map some, (ps.length : Int) - (k : Int)⟩ : UndoStack).State.2
      = ((ps.length : Int) - (k : Int), (k : Int)) ∧
    (∀ w2 : List Call,
      ((⟨ps.map some, (ps.length : Int) - (k : Int)⟩ : UndoStack).run h
        (List.replicate k Cmd.Redo) w2).1 = ⟨ps.map some, (ps.length : Int)⟩ ∧
      ((⟨ps.map some, (ps.length : Int) - (k : Int)⟩ : UndoStack).run h
        (List.replicate k Cmd.Redo) w2).2.1
        = w2 ++ ((ps.drop (ps.length - k)).map h.doCalls).flatten ∧
      ((⟨ps.map some, (ps.length : Int) - (k : Int)⟩ : UndoStack).run h
        (List.replicate k Cmd.Redo) w2).2.2.length = k ∧
      (∀ o ∈ ((⟨ps.map some, (ps.length : Int) - (k : Int)⟩ : UndoStack).run h
        (List.replicate k Cmd.Redo) w2).2.2, ∃ e, o = .ok (Value.err e))) ∧
    (⟨ps.map some, (ps.length : Int)⟩ : UndoStack).State.2 = ((ps.length : Int), 0) ∧
    (UndoStack.zero.run h (ps.map (fun p => Cmd.Do (some p))) w).2.2.length = ps.length ∧
    (∀ o ∈ (UndoStack.zero.run h (ps.map (fun p => Cmd.Do (some p))) w).2.2,
      ∃ e, o = .ok (Value.err e)) := by
  obtain ⟨d1, d2, d3, d4⟩ := run_Do_list h ps UndoStack.zero w rfl
  have hcast : ((ps.length : Int) - (k : Int)) = ((ps.length - k : Nat) : Int) := by omega
  refine ⟨?_, d2, ?_, ?_, ?_, ?_, d3, d4⟩
  · rw [d1]
    simp [UndoStack.zero]
  · intro w1
    obtain ⟨u1, u2, u3, u4⟩ := run_Undo_replicate h ps k ps.length w1 hk (le_refl _)
    rw [List.take_length] at u2
    exact ⟨u1, u2, u3, u4⟩
  · simp [UndoStack.State]
  · intro w2
    rw [hcast]
    obtain ⟨r1, r2, r3, r4⟩ := run_Redo_replicate h ps k (ps.length - k) w2 (by omega)
    have htk : (ps.drop (ps.length - k)).take k = ps.drop (ps.length - k) := by
      apply List.take_of_length_le
      simp only [List.length_drop]
      omega
    rw [htk] at r2
    refine ⟨?_, r2, r3, r4⟩
    rw [r1]
    simp only [UndoStack.mk.injEq, true_and]
    omega
  · simp [UndoStack.State]

/-- C19 on three operations and two undos. -/
theorem C19_undo_redo_strictly_lifo_witness :
    ((⟨[some 1, some 2, some 3], 3⟩ : UndoStack).run exampleHost
      (List.replicate 2 Cmd.Undo) []).2.1
      = [Call.Undo 32, Call.Undo 31, Call.Undo 22, Call.Undo 21] ∧
    ((⟨[some 1, some 2, some 3], 1⟩ : UndoStack).run exampleHost
      (List.replicate 2 Cmd.Redo) []).2.1
      = [Call.Do 21, Call.Do 22, Call.Do 31, Call.Do 32] :=
  ⟨((C19_undo_redo_strictly_lifo exampleHost [1, 2, 3] 2 [] (by decide)).2.2.1 []).2.1,
   ((C19_undo_redo_strictly_lifo exampleHost [1, 2, 3] 2 [] (by decide)).2.2.2.2.1 []).2.1⟩

end Undostack
